/-
  Verification of the MCR (Model Context Reasoner) session pipeline.

  The pipeline is implemented three times in the repository (mcrws1.py,
  mcrws2.py, mcrws3.py); the definitions below embed the core service
  functions of each variant.  Text is modelled as `List Char`; Python
  string operations (`split`, `splitlines`, `strip`, `count`, `in`,
  `join`) are embedded as executable functions on `List Char` that follow
  CPython's semantics on those operations.  Unicode whitespace classes are
  modelled by the exact character sets CPython uses for `str.isspace` and
  `str.splitlines`.
-/
import Mathlib

namespace MCR

/-- Convert a string literal to the `List Char` representation used throughout. -/
def str (s : String) : List Char := s.data

/-- The characters CPython's `str.splitlines` treats as line boundaries
(besides the two-character boundary `"\r\n"`): `\n`, `\v`, `\f`, `\r`,
`\x1c`-`\x1e`, `\x85`, `\u2028`, `\u2029`. -/
def isBreak (c : Char) : Bool :=
  ('\n' ≤ c && c ≤ '\r') || ('\x1c' ≤ c && c ≤ '\x1e') ||
  c = '\x85' || c = '\u2028' || c = '\u2029'

/-- The characters CPython's `str.isspace` (and hence `str.strip()`) treats as
whitespace: every line-boundary character together with `\t`, space, `\x1f`,
no-break spaces and the Unicode space separators. -/
def isSpace (c : Char) : Bool :=
  isBreak c || c = '\t' || c = ' ' || c = '\x1f' || c = '\xa0' ||
  c = '\u1680' || ('\u2000' ≤ c && c ≤ '\u200a') ||
  c = '\u202f' || c = '\u205f' || c = '\u3000'

/-- Python `text.split(sep)` for a single-character separator `sep`. -/
def splitOnChar (sep : Char) : List Char → List (List Char)
  | [] => [[]]
  | c :: cs =>
    if c = sep then [] :: splitOnChar sep cs
    else
      match splitOnChar sep cs with
      | [] => [[c]]
      | l :: ls => (c :: l) :: ls

/-- Python `text.splitlines()`: splits at every line-boundary character,
treating `"\r\n"` as a single boundary, and does not produce a final empty
piece for a trailing boundary. -/
def pySplitlines : List Char → List (List Char)
  | [] => []
  | '\r' :: '\n' :: cs => [] :: pySplitlines cs
  | c :: cs =>
    if isBreak c then [] :: pySplitlines cs
    else
      match pySplitlines cs with
      | [] => [[c]]
      | l :: ls => (c :: l) :: ls

/-- Remove trailing whitespace (the right half of Python `str.strip()`). -/
def rstrip : List Char → List Char
  | [] => []
  | c :: cs =>
    match rstrip cs with
    | [] => if isSpace c then [] else [c]
    | r => c :: r

/-- Python `str.strip()`: drop leading and trailing whitespace. -/
def strip (cs : List Char) : List Char := rstrip (cs.dropWhile isSpace)

/-- Python `"\n".join(pieces)`. -/
def joinNl : List (List Char) → List Char
  | [] => []
  | [a] => a
  | a :: rest => a ++ '\n' :: joinNl rest

/-- ASCII lowercase letter, as matched by the regex class `[a-z]`. -/
def isLowerCh (c : Char) : Bool := 'a' ≤ c && c ≤ 'z'

/-- A character of the regex class `[a-zA-Z0-9_]`. -/
def isIdentChar (c : Char) : Bool :=
  ('a' ≤ c && c ≤ 'z') || ('A' ≤ c && c ≤ 'Z') || ('0' ≤ c && c ≤ '9') || c = '_'

/-- `MCRService._extract_prolog` of mcrws1.py:
lines are split on `'\n'`, stripped, blank and `%`-comment lines dropped, and a
terminating `'.'` appended to any line not already ending in `'.'`. -/
def extract_prolog1 (text : List Char) : List (List Char) :=
  let lines := ((splitOnChar '\n' text).map strip).filter
    (fun l => !l.isEmpty && !(decide (l.head? = some '%')))
  lines.map (fun l => if l.getLast? = some '.' then l else l ++ ['.'])

/-- `MCRService._extract_prolog` of mcrws2.py: as in mcrws1, except the
terminator test is the regex `[:.]$`, so a line already ending in `':'` is
kept unterminated. -/
def extract_prolog2 (text : List Char) : List (List Char) :=
  let lines := ((splitOnChar '\n' text).map strip).filter
    (fun l => !l.isEmpty && !(decide (l.head? = some '%')))
  lines.map (fun l =>
    if l.getLast? = some '.' ∨ l.getLast? = some ':' then l else l ++ ['.'])

/-- Split at the first `')'`: the lazy part `(?:.|\n)*?\)` of the mcrws3 clause
regex.  Returns the characters before the first `')'` and those after it. -/
def splitAtParen : List Char → Option (List Char × List Char)
  | [] => none
  | c :: cs =>
    if c = ')' then some ([], cs)
    else
      match splitAtParen cs with
      | some (b, a) => some (c :: b, a)
      | none => none

/-- The part `\s*(?::-.*)?` of the mcrws3 clause regex: greedy whitespace, then
optionally a rule separator `:-` followed by the rest of the line (`.` in the
regex does not cross a `'\n'`).  Returns the consumed characters and the rest. -/
def matchTailWs (r1 : List Char) : List Char × List Char :=
  match r1.dropWhile isSpace with
  | ':' :: '-' :: r3 =>
      (r1.takeWhile isSpace ++ ':' :: '-' :: r3.takeWhile (fun c => !(c = '\n' : Bool)),
       r3.dropWhile (fun c => !(c = '\n' : Bool)))
  | r2 => (r1.takeWhile isSpace, r2)

/-- The trailing part `\.?\s*(?::-.*)?` of the mcrws3 clause regex: an optional
dot followed by `matchTailWs`. -/
def matchTail : List Char → List Char × List Char
  | '.' :: r => ('.' :: (matchTailWs r).1, (matchTailWs r).2)
  | cs => matchTailWs cs

/-- One attempted match of the mcrws3 clause regex
`[a-z][a-zA-Z0-9_]*\((?:.|\n)*?\)\.?\s*(?::-.*)?` at the head of the input;
returns the matched text and the remaining input. -/
def matchClause : List Char → Option (List Char × List Char)
  | [] => none
  | c :: cs =>
    if isLowerCh c then
      let idt := cs.takeWhile isIdentChar
      match cs.dropWhile isIdentChar with
      | '(' :: r2 =>
        match splitAtParen r2 with
        | some (body, r3) =>
          let p := matchTail r3
          some (c :: (idt ++ '(' :: (body ++ ')' :: p.1)), p.2)
        | none => none
      | _ => none
    else none

/-- `re.findall` for the mcrws3 clause regex with `re.MULTILINE`: scan left to
right, attempting a match only at positions where `^` matches (the start of the
text, or just after a `'\n'`); on a match, continue after its end, otherwise
advance one character.  The `fuel` argument makes the recursion structural;
every step consumes at least one character, so `fuel = cs.length` (as supplied
by `findClauses`) never runs out. -/
def findClausesGo : Nat → List Char → Bool → List (List Char)
  | 0, _, _ => []
  | _, [], _ => []
  | fuel + 1, c :: cs2, atStart =>
    if atStart then
      match matchClause (c :: cs2) with
      | some (m, rest) => m :: findClausesGo fuel rest (m.getLast? = some '\n')
      | none => findClausesGo fuel cs2 (c = '\n')
    else findClausesGo fuel cs2 (c = '\n')

/-- All matches of the mcrws3 clause regex in the given text. -/
def findClauses (cs : List Char) (atStart : Bool) : List (List Char) :=
  findClausesGo cs.length cs atStart

/-- `MCRService._extract_prolog` of mcrws3.py: all regex matches of
`^[a-z][a-zA-Z0-9_]*\((?:.|\n)*?\)\.?\s*(?::-.*)?` (MULTILINE), each stripped
and given a terminating `'.'` if it lacks one. -/
def extract_prolog3 (text : List Char) : List (List Char) :=
  (findClauses text true).map
    (fun m => if (strip m).getLast? = some '.' then strip m else strip m ++ ['.'])

/-- Auxiliary (not from the source): append one character to the last piece of
a line list; used to state how `pySplitlines` reacts to appending a character. -/
def appendToLast : List (List Char) → Char → List (List Char)
  | [], x => [[x]]
  | [l], x => [l ++ [x]]
  | l :: ls, x => l :: appendToLast ls x

/-- Auxiliary (not from the source): the text is empty or ends in a
line-boundary character. -/
def endsBreakOrEmpty (s : List Char) : Bool :=
  match s.getLast? with
  | none => true
  | some c => isBreak c

/-- The shape the spec describes for an accepted candidate clause: the line
begins with a lowercase identifier immediately followed by `'('`.  This
definition follows the spec text (for comparison with the extractors), not any
one source file. -/
def startsWithIdentParen (l : List Char) : Bool :=
  match l with
  | c :: cs => isLowerCh c && decide ((cs.dropWhile isIdentChar).head? = some '(')
  | [] => false

/-- Code-point lexicographic order on character lists: Python string `<=`. -/
def lexLe : List Char → List Char → Bool
  | [], _ => true
  | _ :: _, [] => false
  | x :: xs, y :: ys => if x = y then lexLe xs ys else decide (x < y)

/-- Python `sorted(list(s))` for a set `s` collected from the given items:
sort ascending and drop duplicates. -/
def sortedSet (items : List (List Char)) : List (List Char) :=
  (items.insertionSort (fun a b => lexLe a b = true)).dedup

/-- Python `str(i)` for an integer. -/
def intStr (i : Int) : List Char :=
  if i < 0 then '-' :: Nat.toDigits 10 i.natAbs else Nat.toDigits 10 i.toNat

/-- Python `line.split(':-')`. -/
def splitCD : List Char → List (List Char)
  | [] => [[]]
  | ':' :: '-' :: cs => [] :: splitCD cs
  | c :: cs =>
    match splitCD cs with
    | [] => [[c]]
    | l :: ls => (c :: l) :: ls

/-- Python `'()' in text`. -/
def containsParenPair : List Char → Bool
  | '(' :: ')' :: _ => true
  | _ :: cs => containsParenPair cs
  | [] => false

/-- `re.match(r'([a-z][a-zA-Z0-9_]*)\(', line)`, returning group 1: a leading
lowercase identifier immediately followed by `'('` (mcrws2's predicate test). -/
def matchIdentParen : List Char → Option (List Char)
  | [] => none
  | c :: cs =>
    if isLowerCh c then
      match cs.dropWhile isIdentChar with
      | '(' :: _ => some (c :: cs.takeWhile isIdentChar)
      | _ => none
    else none

/-- `re.match(r'([a-z][a-zA-Z0-9_]*)\s*(?::-|.)', line)`, returning group 1
(mcrws3's predicate test).  The pattern requires, after the identifier and
optional whitespace, either `:-` or any single non-`'\n'` character; with
backtracking this succeeds with the full identifier whenever some non-`'\n'`
character follows it, otherwise by giving back one identifier character. -/
def matchPredName : List Char → Option (List Char)
  | [] => none
  | c :: cs =>
    if isLowerCh c then
      let idt := cs.takeWhile isIdentChar
      if (cs.dropWhile isIdentChar).any (fun x => !(x = '\n' : Bool)) then
        some (c :: idt)
      else if idt.isEmpty then none
      else some (c :: idt.dropLast)
    else none

/-- A character of the regex class `[a-zA-Z0-9_,\s]` used by mcrws3's atom
regex (`\s` in a Python `str` pattern matches exactly the `str.isspace`
characters). -/
def isAtomChar (c : Char) : Bool := isIdentChar c || c = ',' || isSpace c

/-- `re.finditer(r'\(([a-zA-Z0-9_,\s]+)\)', line)`, collecting group 1 of every
match: a `'('`, a nonempty maximal run of atom characters, then `')'`.  On
failure the scan advances one character; fuelled as in `findClausesGo`. -/
def findAtomGroupsGo : Nat → List Char → List (List Char)
  | 0, _ => []
  | _, [] => []
  | fuel + 1, '(' :: cs =>
    (match cs.takeWhile isAtomChar with
     | [] => findAtomGroupsGo fuel cs
     | run =>
       match cs.dropWhile isAtomChar with
       | ')' :: rest => run :: findAtomGroupsGo fuel rest
       | _ => findAtomGroupsGo fuel cs)
  | fuel + 1, _ :: cs => findAtomGroupsGo fuel cs

/-- All groups captured by mcrws3's atom regex in the given line. -/
def findAtomGroups (cs : List Char) : List (List Char) :=
  findAtomGroupsGo cs.length cs

/-- The arity mcrws2's `_get_kb_schema` computes for a line: the comma count of
the whole line plus one when the line contains `'('` and `')'` (else 0), minus
the comma count of the text between the first and second `':-'` when a rule
separator is present. -/
def arityWS2 (l : List Char) : Int :=
  let base : Int := if l.contains '(' && l.contains ')' then (l.count ',' : Int) + 1 else 0
  match (splitCD l)[1]? with
  | some seg => base - (seg.count ',' : Int)
  | none => base

/-- The signature item (if any) mcrws2's `_get_kb_schema` derives from one KB
line. -/
def lineItems2 (line : List Char) : List (List Char) :=
  let l := strip line
  if l.isEmpty || decide (l.head? = some '%') then []
  else
    match matchIdentParen l with
    | some name => [name ++ '/' :: intStr (arityWS2 l)]
    | none => []

/-- `MCRService._get_kb_schema` of mcrws2.py. -/
def kb_schema2 (kb : List Char) : List (List Char) :=
  sortedSet ((pySplitlines kb).flatMap lineItems2)

/-- The arity mcrws3's `_get_kb_schema` computes for a line: 0 when the text
before the first `':-'` contains the substring `"()"`, else that text's comma
count plus one. -/
def arityWS3 (l : List Char) : Int :=
  let headPart := (splitCD l).headD []
  if containsParenPair headPart then 0 else (headPart.count ',' : Int) + 1

/-- The known atoms mcrws3's `_get_kb_schema` collects from one line: for each
atom-regex group, the comma-separated pieces, stripped, that start with a
lowercase letter. -/
def lineAtoms3 (l : List Char) : List (List Char) :=
  (findAtomGroups l).flatMap (fun g =>
    ((splitOnChar ',' g).map strip).filter
      (fun s => match s.head? with | some c => isLowerCh c | none => false))

/-- The schema items mcrws3's `_get_kb_schema` derives from one KB line:
an optional `name/arity` signature plus the known atoms. -/
def lineItems3 (line : List Char) : List (List Char) :=
  let l := strip line
  if l.isEmpty || decide (l.head? = some '%') then []
  else
    (match matchPredName l with
     | some name => [name ++ '/' :: intStr (arityWS3 l)]
     | none => []) ++ lineAtoms3 l

/-- `MCRService._get_kb_schema` of mcrws3.py. -/
def kb_schema3 (kb : List Char) : List (List Char) :=
  sortedSet ((pySplitlines kb).flatMap lineItems3)

/-- The dynamically typed Python values a reasoner result can take: booleans,
strings, lists (of e.g. binding dictionaries or strings) and `None`. -/
inductive PyVal where
  | pyBool (b : Bool)
  | pyStr (s : String)
  | pyList (xs : List PyVal)
  | pyDict (entries : List (String × String))
  | pyNone

/-- Python truthiness of a reasoner result value. -/
def truthy : PyVal → Bool
  | .pyBool b => b
  | .pyStr s => !(s = "" : Bool)
  | .pyList xs => !xs.isEmpty
  | .pyDict es => !es.isEmpty
  | .pyNone => false

/-- Python `result == ['No']`. -/
def isNoList : PyVal → Bool
  | .pyList [.pyStr s] => s == "No"
  | _ => false

/-- mcrws1 `run_query` result shaping: `"Yes" if result else "No"`. -/
def result_for_llm1 (result : PyVal) : PyVal :=
  if truthy result then .pyStr "Yes" else .pyStr "No"

/-- mcrws2 `run_query` result shaping:
`"true" if result is True else ("No" if result is False else result)`. -/
def result_for_llm2 (result : PyVal) : PyVal :=
  match result with
  | .pyBool true => .pyStr "true"
  | .pyBool false => .pyStr "No"
  | r => r

/-- mcrws3 `run_query` result shaping:
`"true" if result is True else ("No" if not result or result == ['No'] else result)`. -/
def result_for_llm3 (result : PyVal) : PyVal :=
  match result with
  | .pyBool true => .pyStr "true"
  | r => if !truthy r || isNoList r then .pyStr "No" else r

/-- The error taxonomy of the service layer (`MCRError` subclasses). -/
inductive MCRErr where
  | notFound (msg : String)
  | provider (msg : String)
  | validation (msg : String)
deriving DecidableEq

/-- The outcome of one engine evaluation inside `asyncio.wait_for`: a returned
value (possibly `None`), a timeout, or an engine exception.  Wall-clock time is
not modelled; the three possible completions of the awaited call are. -/
inductive EngineResult where
  | value (v : Option PyVal)
  | timeout
  | failure (msg : String)

/-- `PythologReasonProvider.query` of mcrws1.py, past the engine call: a `None`
result is normalized to `[]`, a timeout raises
`ProviderError("Reasoning query timed out ...")`, and any other engine
exception raises `ProviderError("Pytholog reasoning error: ...")`.
(mcrws2.py line 191 is char-for-char identical.) -/
def reason_query1 (r : EngineResult) : Except MCRErr PyVal :=
  match r with
  | .value (some v) => .ok v
  | .value none => .ok (.pyList [])
  | .timeout => .error (.provider "Reasoning query timed out after 5s.")
  | .failure e => .error (.provider ("Pytholog reasoning error: " ++ e))

/-- `PythologReasonProvider.query` of mcrws3.py: the returned value goes
through `... or []`, so every falsy result (including `None`) becomes `[]`. -/
def reason_query3 (r : EngineResult) : Except MCRErr PyVal :=
  match r with
  | .value (some v) => .ok (if truthy v then v else .pyList [])
  | .value none => .ok (.pyList [])
  | .timeout => .error (.provider "Reasoning query timed out after 10s.")
  | .failure e => .error (.provider ("Pytholog reasoning error: " ++ e))

/-- The observable outcome of an assert call: the deduplicated clauses, the
resulting knowledge base, and whether `save_session` was called. -/
structure AssertOut where
  addedFacts : List (List Char)
  knowledgeBase : List Char
  saved : Bool
deriving DecidableEq

/-- `MCRService.assert_into_session` of mcrws1.py from the backend response
onwards (the session lookup and `llm.generate` call have already produced `kb`
and `resp`): normalize the response, drop clauses already present verbatim
among `kb.splitlines()`, and if any remain, append them joined by newlines and
save; the function body contains no failure path. -/
def assert_into_session1 (kb resp : List Char) : AssertOut :=
  let new_facts := extract_prolog1 resp
  let current := pySplitlines kb
  let added := new_facts.filter (fun f => decide (f ∉ current))
  if added.isEmpty then ⟨added, kb, false⟩
  else ⟨added, strip (kb ++ '\n' :: joinNl added), true⟩

/-- `MCRService.assert_into_session` of mcrws3.py from the translation
response onwards (session lookup, intent classification and the translation
chain have already produced `kb` and `resp`): zero normalized clauses raise
`ProviderError`; dedup compares against the stripped KB lines. -/
def assert_into_session3 (kb resp : List Char) : Except MCRErr AssertOut :=
  let new_clauses := extract_prolog3 resp
  if new_clauses.isEmpty then
    .error (.provider "LLM failed to generate valid Prolog code.")
  else
    let added := new_clauses.filter (fun c => decide (c ∉ (pySplitlines kb).map strip))
    if added.isEmpty then .ok ⟨added, kb, false⟩
    else .ok ⟨added, strip (kb ++ '\n' :: joinNl added), true⟩

/-- `MCRService._run_prompt_chain` of mcrws3.py, with the backend call per
variant abstracted as its outcome (`.error` when `generate` raised, `.ok` with
the returned text otherwise): an empty variant list raises; each variant's
response is returned stripped if non-blank, otherwise the next variant is
tried; a raised backend error propagates (there is no handler around
`generate`); exhaustion raises `ProviderError`. -/
def runChainGo : List (Except MCRErr (List Char)) → Except MCRErr (List Char)
  | [] => .error (.provider "LLM failed after trying all variants.")
  | .error e :: _ => .error e
  | .ok resp :: rest =>
    if resp.isEmpty then runChainGo rest
    else if (strip resp).isEmpty then runChainGo rest
    else .ok (strip resp)

/-- `MCRService._run_prompt_chain` of mcrws3.py (see `runChainGo`). -/
def run_prompt_chain (responses : List (Except MCRErr (List Char))) :
    Except MCRErr (List Char) :=
  if responses.isEmpty then .error (.provider "No prompt templates found.")
  else runChainGo responses

/-- The `update_kb` route handler (identical logic in all three variants):
look up the session, validate the proposed text with the engine's parser
(modelled as a function returning `none` for valid and `some err` otherwise),
and only on success store the new text.  Returns the stored KB text after the
call together with the result. -/
def update_kb (validate : List Char → Option String) (stored : Option (List Char))
    (newKb : List Char) : Option (List Char) × Except MCRErr Unit :=
  match stored with
  | none => (stored, .error (.notFound "Session not found."))
  | some _ =>
    match validate newKb with
    | some err => (stored, .error (.validation ("KB validation failed: " ++ err)))
    | none => (some newKb, .ok ())


/-!  Theorems.

The `sanity*` theorems check the embedded definitions on concrete inputs
against the behaviour of the CPython implementation (verified by running the
corresponding `re`/`str` operations); the `*_length` theorems justify that the
fuel supplied by `findClauses` to `findClausesGo` is sufficient (every scan
step consumes at least one input character). -/

theorem splitAtParen_length {cs b a : List Char}
    (h : splitAtParen cs = some (b, a)) : a.length < cs.length := by
  induction cs generalizing b a with
  | nil => simp [splitAtParen] at h
  | cons c cs ih =>
    simp only [splitAtParen] at h
    by_cases hc : c = ')'
    · simp [hc] at h
      simp [← h.2, List.length_cons, Nat.lt_succ_iff]
    · simp only [hc, if_false] at h
      cases hsp : splitAtParen cs with
      | none => rw [hsp] at h; simp at h
      | some p =>
        rw [hsp] at h
        obtain ⟨b', a'⟩ := p
        simp at h
        have := ih hsp
        simp [← h.2, List.length_cons]
        omega

theorem dropWhile_length_le {α : Type} (p : α → Bool) (l : List α) :
    (l.dropWhile p).length ≤ l.length := by
  induction l with
  | nil => simp
  | cons a l ih =>
    rw [List.dropWhile_cons]
    split
    · exact le_trans ih (Nat.le_succ _)
    · exact le_refl _

theorem matchTailWs_length (r : List Char) : (matchTailWs r).2.length ≤ r.length := by
  unfold matchTailWs
  split
  · next r3 heq =>
      have h1 : r3.length + 2 ≤ r.length := by
        have h := dropWhile_length_le isSpace r
        rw [heq] at h
        simpa using h
      have h2 := dropWhile_length_le (fun c => !(c = '\n' : Bool)) r3
      simp only []
      omega
  · exact dropWhile_length_le isSpace r

theorem matchTail_length (cs : List Char) : (matchTail cs).2.length ≤ cs.length := by
  unfold matchTail
  split
  · next r =>
      exact le_trans (matchTailWs_length r) (Nat.le_succ _)
  · next => exact matchTailWs_length _

theorem matchClause_length {cs m rest : List Char}
    (h : matchClause cs = some (m, rest)) : rest.length < cs.length := by
  cases cs with
  | nil => simp [matchClause] at h
  | cons c cs =>
    simp only [matchClause] at h
    split at h
    · split at h
      · next r2 hdw =>
          split at h
          · next body r3 hsp =>
              simp only [Option.some.injEq, Prod.mk.injEq] at h
              have hr2 : r2.length < cs.length := by
                have hle := dropWhile_length_le isIdentChar cs
                rw [hdw] at hle
                simp only [List.length_cons] at hle
                omega
              have hr3 := splitAtParen_length hsp
              have htl := matchTail_length r3
              rw [← h.2]
              simp only [List.length_cons]
              omega
          · exact absurd h (by simp)
      · exact absurd h (by simp)
    · exact absurd h (by simp)

theorem isSpace_of_isBreak {c : Char} (h : isBreak c = true) : isSpace c = true := by
  simp [isSpace, h]

theorem sanity1 : extract_prolog1 (str "color(sphere, red)\n\n% c\nok.") =
    [str "color(sphere, red).", str "ok."] := by decide

theorem sanity2 : extract_prolog2 (str "p(a):") = [str "p(a):"] := by decide

theorem sanity3 : extract_prolog3 (str "parent(a, b).\nparent(c, d).") =
    [str "parent(a, b).", str "parent(c, d)."] := by decide

theorem sanity4 : extract_prolog3 (str "grandparent(GP, GC) :- parent(GP, P), parent(P, GC).") =
    [str "grandparent(GP, GC) :- parent(GP, P), parent(P, GC)."] := by decide

theorem sanity5 : extract_prolog3 (str "Here are facts:\nfoo(a). bar(b).\nbaz(c)") =
    [str "foo(a).", str "baz(c)."] := by decide

theorem sanity6 : extract_prolog3 (str "foo(bar(x), y).") = [str "foo(bar(x)."] := by decide

theorem sanity7 : extract_prolog3 (str "a(b) :-\n c(d).") = [str "a(b) :-."] := by decide

theorem sanity8 : extract_prolog3 (str "x(a) :- y.\r\nz(b).") =
    [str "x(a) :- y.", str "z(b)."] := by decide

theorem sanity9 : kb_schema2 (str "p().") = [str "p/1"] := by decide

theorem sanity10 : kb_schema2 (str "foo(a,b) :- c(d,e), f(g).") = [str "foo/2"] := by decide

theorem sanity11 : kb_schema2 (str "p(a), q(b).") = [str "p/2"] := by decide

theorem sanity12 : kb_schema3 (str "p().\nparent(elizabeth, charles).") =
    [str "charles", str "elizabeth", str "p/0", str "parent/2"] := by decide

theorem sanity13 : kb_schema3 (str "grandparent(GP, GC) :- parent(GP, P), parent(P, GC).") =
    [str "grandparent/2"] := by decide

theorem sanity14 : kb_schema3 (str "hello world") = [str "hello/1"] := by decide

/-! Helper lemmas about `rstrip`, `strip` and the splitting functions. -/

theorem rstrip_cons (c : Char) (cs : List Char) :
    rstrip (c :: cs) =
      if rstrip cs = [] then (if isSpace c then [] else [c]) else c :: rstrip cs := by
  simp only [rstrip]
  cases rstrip cs with
  | nil => simp
  | cons d r => simp

theorem rstrip_eq_nil_iff {s : List Char} :
    rstrip s = [] ↔ ∀ c ∈ s, isSpace c = true := by
  induction s with
  | nil => simp [rstrip]
  | cons a s ih =>
    rw [rstrip_cons]
    by_cases hr : rstrip s = []
    · have hs := ih.1 hr
      rw [if_pos hr]
      by_cases ha : isSpace a
      · rw [if_pos ha]
        constructor
        · intro _ c hc
          rcases List.mem_cons.1 hc with rfl | hc
          · exact ha
          · exact hs c hc
        · intro _; rfl
      · rw [if_neg ha]
        constructor
        · intro h; exact absurd h (by simp)
        · intro h; exact absurd (h a (List.mem_cons_self a s)) ha
    · rw [if_neg hr]
      constructor
      · intro h; exact absurd h (by simp)
      · intro h
        exact absurd (ih.2 fun c hc => h c (List.mem_cons_of_mem a hc)) hr

theorem rstrip_head? {c : Char} {cs : List Char} (h : rstrip (c :: cs) ≠ []) :
    (rstrip (c :: cs)).head? = some c := by
  rw [rstrip_cons] at h ⊢
  by_cases hr : rstrip cs = []
  · rw [if_pos hr] at h ⊢
    by_cases hs : isSpace c
    · rw [if_pos hs] at h; exact absurd rfl h
    · rw [if_neg hs]; rfl
  · rw [if_neg hr]; rfl

theorem rstrip_append (xs ys : List Char) :
    rstrip (xs ++ ys) = if rstrip ys = [] then rstrip xs else xs ++ rstrip ys := by
  induction xs with
  | nil =>
    by_cases hy : rstrip ys = []
    · rw [List.nil_append, if_pos hy, hy]; rfl
    · rw [List.nil_append, if_neg hy, List.nil_append]
  | cons a xs ih =>
    rw [List.cons_append, rstrip_cons, ih, rstrip_cons]
    by_cases hy : rstrip ys = []
    · simp [hy]
    · simp [hy]

theorem rstrip_getLast? {s : List Char} (h : rstrip s ≠ []) :
    ∃ c, (rstrip s).getLast? = some c ∧ isSpace c = false := by
  induction s with
  | nil => simp [rstrip] at h
  | cons a s ih =>
    rw [rstrip_cons] at h ⊢
    by_cases hr : rstrip s = []
    · rw [if_pos hr] at h ⊢
      by_cases hs : isSpace a
      · rw [if_pos hs] at h; exact absurd rfl h
      · rw [if_neg hs]
        exact ⟨a, rfl, by simpa using hs⟩
    · rw [if_neg hr] at h ⊢
      obtain ⟨c, hc, hcs⟩ := ih hr
      refine ⟨c, ?_, hcs⟩
      cases hrr : rstrip s with
      | nil => exact absurd hrr hr
      | cons d r =>
        rw [hrr] at hc
        rw [List.getLast?_cons_cons]
        exact hc

theorem rstrip_eq_self_of_getLast? {s : List Char} {c : Char}
    (h : s.getLast? = some c) (hc : isSpace c = false) : rstrip s = s := by
  have hne : s ≠ [] := by intro hnil; rw [hnil] at h; exact absurd h (by simp)
  obtain ⟨l, b, rfl⟩ := (List.eq_nil_or_concat s).resolve_left hne
  rw [List.concat_eq_append] at h ⊢
  rw [List.getLast?_concat] at h
  have hb : b = c := by injection h
  rw [rstrip_append]
  have h1 : rstrip [b] = [b] := by
    rw [show ([b] : List Char) = b :: [] from rfl, rstrip_cons]
    simp [show rstrip [] = [] from rfl, hb, hc]
  rw [h1, if_neg (by simp)]

theorem rstrip_decomp (s : List Char) :
    ∃ t, s = rstrip s ++ t ∧ ∀ c ∈ t, isSpace c = true := by
  induction s with
  | nil => exact ⟨[], rfl, by simp⟩
  | cons a s ih =>
    obtain ⟨t, hst, hsp⟩ := ih
    rw [rstrip_cons]
    by_cases hr : rstrip s = []
    · rw [if_pos hr]
      rw [hr, List.nil_append] at hst
      by_cases ha : isSpace a
      · rw [if_pos ha]
        refine ⟨a :: s, by simp, fun c hc => ?_⟩
        rcases List.mem_cons.1 hc with rfl | hc
        · exact ha
        · exact hsp c (hst ▸ hc)
      · rw [if_neg ha]
        exact ⟨s, by simp, fun c hc => hsp c (hst ▸ hc)⟩
    · rw [if_neg hr]
      exact ⟨t, by rw [List.cons_append, ← hst], hsp⟩

theorem mem_of_mem_rstrip {c : Char} {s : List Char} (h : c ∈ rstrip s) : c ∈ s := by
  obtain ⟨t, hst, _⟩ := rstrip_decomp s
  rw [hst]
  exact List.mem_append_left t h

theorem rstrip_idem (s : List Char) : rstrip (rstrip s) = rstrip s := by
  cases hr : rstrip s with
  | nil => rfl
  | cons d r =>
    obtain ⟨c, hc, hcs⟩ := rstrip_getLast? (s := s) (by simp [hr])
    rw [hr] at hc
    exact rstrip_eq_self_of_getLast? hc hcs

theorem dropWhile_head?_not {p : Char → Bool} {s r : List Char} {c : Char}
    (h : s.dropWhile p = c :: r) : p c = false := by
  induction s with
  | nil => exact absurd h (by simp)
  | cons a s ih =>
    rw [List.dropWhile_cons] at h
    split at h
    · exact ih h
    · next hp =>
      obtain rfl : a = c := by injection h
      simpa using hp

theorem strip_head? {s r : List Char} {c : Char} (h : strip s = c :: r) :
    isSpace c = false := by
  unfold strip at h
  cases hd : s.dropWhile isSpace with
  | nil => rw [hd] at h; exact absurd h (by simp [rstrip])
  | cons d t =>
    rw [hd] at h
    have h2 := @rstrip_head? d t (by rw [h]; simp)
    rw [h] at h2
    injection h2 with h2
    subst h2
    exact dropWhile_head?_not hd

theorem strip_getLast? {s : List Char} (h : strip s ≠ []) :
    ∃ c, (strip s).getLast? = some c ∧ isSpace c = false :=
  rstrip_getLast? h

theorem mem_of_mem_strip {c : Char} {s : List Char} (h : c ∈ strip s) : c ∈ s :=
  (List.dropWhile_sublist _).subset (mem_of_mem_rstrip h)

theorem strip_eq_self_of {s : List Char} {hc lc : Char}
    (hh : s.head? = some hc) (hhs : isSpace hc = false)
    (hl : s.getLast? = some lc) (hls : isSpace lc = false) : strip s = s := by
  unfold strip
  cases s with
  | nil => exact absurd hh (by simp)
  | cons a t =>
    injection hh with hh
    subst hh
    rw [List.dropWhile_cons, if_neg (by simp [hhs])]
    exact rstrip_eq_self_of_getLast? hl hls

theorem strip_idem (s : List Char) : strip (strip s) = strip s := by
  cases hs : strip s with
  | nil => rfl
  | cons c r =>
    have hc := strip_head? hs
    obtain ⟨lc, hlc, hlcs⟩ := strip_getLast? (s := s) (by simp [hs])
    rw [hs] at hlc
    exact hs ▸ strip_eq_self_of (s := c :: r) rfl hc hlc hlcs

theorem splitOnChar_ne_nil (sep : Char) (s : List Char) : splitOnChar sep s ≠ [] := by
  cases s with
  | nil => simp [splitOnChar]
  | cons c cs =>
    simp only [splitOnChar]
    by_cases hc : c = sep
    · simp [hc]
    · rw [if_neg hc]
      cases splitOnChar sep cs <;> simp

theorem mem_splitOnChar_not_sep {sep : Char} {p s : List Char}
    (h : p ∈ splitOnChar sep s) : sep ∉ p := by
  induction s generalizing p with
  | nil =>
    simp only [splitOnChar, List.mem_singleton] at h
    subst h; simp
  | cons a cs ih =>
    simp only [splitOnChar] at h
    split at h
    · rcases List.mem_cons.1 h with rfl | h
      · simp
      · exact ih h
    · next ha =>
      split at h
      · next heq =>
        rw [List.mem_singleton] at h
        subst h
        intro hm
        rcases List.mem_cons.1 hm with hm | hm
        · exact ha hm.symm
        · exact absurd hm (by simp)
      · next l ls heq =>
        rcases List.mem_cons.1 h with rfl | h
        · intro hm
          have hl : l ∈ splitOnChar sep cs := by
            rw [heq]; exact List.mem_cons_self l ls
          rcases List.mem_cons.1 hm with hm | hm
          · exact ha hm.symm
          · exact ih hl hm
        · have hl : p ∈ splitOnChar sep cs := by
            rw [heq]; exact List.mem_cons_of_mem l h
          exact ih hl

theorem mem_of_mem_splitOnChar {sep c : Char} {p s : List Char}
    (hp : p ∈ splitOnChar sep s) (hc : c ∈ p) : c ∈ s := by
  induction s generalizing p with
  | nil =>
    simp only [splitOnChar, List.mem_singleton] at hp
    subst hp
    exact absurd hc (by simp)
  | cons a cs ih =>
    simp only [splitOnChar] at hp
    split at hp
    · rcases List.mem_cons.1 hp with rfl | hp
      · exact absurd hc (by simp)
      · exact List.mem_cons_of_mem a (ih hp hc)
    · split at hp
      · next heq =>
        rw [List.mem_singleton] at hp
        subst hp
        rcases List.mem_cons.1 hc with rfl | hc
        · exact List.mem_cons_self c cs
        · exact absurd hc (by simp)
      · next l ls heq =>
        rcases List.mem_cons.1 hp with rfl | hp
        · have hl : l ∈ splitOnChar sep cs := by
            rw [heq]; exact List.mem_cons_self l ls
          rcases List.mem_cons.1 hc with rfl | hc
          · exact List.mem_cons_self c cs
          · exact List.mem_cons_of_mem a (ih hl hc)
        · have hl : p ∈ splitOnChar sep cs := by
            rw [heq]; exact List.mem_cons_of_mem l hp
          exact List.mem_cons_of_mem a (ih hl hc)

/-! Lemmas about `pySplitlines`. -/

theorem mem_of_getLast?_eq {l : List Char} {a : Char} (h : l.getLast? = some a) :
    a ∈ l := by
  induction l with
  | nil => exact absurd h (by simp)
  | cons b t ih =>
    cases t with
    | nil =>
      injection h with h
      subst h
      exact List.mem_singleton_self b
    | cons b2 t2 =>
      rw [List.getLast?_cons_cons] at h
      exact List.mem_cons_of_mem b (ih h)

theorem getLast?_eq_some_of_ne_nil {l : List Char} (h : l ≠ []) :
    ∃ a, l.getLast? = some a := by
  cases hl : l.getLast? with
  | none => exact absurd (List.getLast?_eq_none_iff.1 hl) h
  | some a => exact ⟨a, rfl⟩

theorem ps_crlf (cs : List Char) :
    pySplitlines ('\r' :: '\n' :: cs) = [] :: pySplitlines cs := rfl

theorem ps_cons (c : Char) (cs : List Char) (hg : ¬(c = '\r' ∧ cs.head? = some '\n')) :
    pySplitlines (c :: cs) =
      if isBreak c then [] :: pySplitlines cs
      else
        match pySplitlines cs with
        | [] => [[c]]
        | l :: ls => (c :: l) :: ls := by
  rw [pySplitlines.eq_def]
  split
  · next heq => exact absurd heq (by simp)
  · next cs2 heq =>
    have hc : c = '\r' := by injection heq
    have hcs : cs = '\n' :: cs2 := by injection heq with h1 h2
    exact absurd ⟨hc, by rw [hcs]; rfl⟩ hg
  · next c2 cs2 hguard heq =>
    have hc : c = c2 := by injection heq
    have hcs : cs = cs2 := by injection heq with h1 h2
    rw [hc, hcs]

theorem ps_cons_break {c : Char} (cs : List Char) (hb : isBreak c = true)
    (hg : ¬(c = '\r' ∧ cs.head? = some '\n')) :
    pySplitlines (c :: cs) = [] :: pySplitlines cs := by
  rw [ps_cons c cs hg, if_pos hb]

theorem not_cr_of_not_break {c : Char} (hb : isBreak c = false) : c ≠ '\r' := by
  intro h
  subst h
  exact absurd hb (by decide)

theorem ps_cons_nb_nil {c : Char} {cs : List Char} (hb : isBreak c = false)
    (h : pySplitlines cs = []) : pySplitlines (c :: cs) = [[c]] := by
  rw [ps_cons c cs (fun hx => not_cr_of_not_break hb hx.1), if_neg (by simp [hb]), h]

theorem ps_cons_nb_cons {c : Char} {cs l : List Char} {ls : List (List Char)}
    (hb : isBreak c = false) (h : pySplitlines cs = l :: ls) :
    pySplitlines (c :: cs) = (c :: l) :: ls := by
  rw [ps_cons c cs (fun hx => not_cr_of_not_break hb hx.1), if_neg (by simp [hb]), h]

theorem guard_conv {c : Char} {cs : List Char}
    (h : ∀ cs1 : List Char, c = '\r' → cs = '\n' :: cs1 → False) :
    ¬(c = '\r' ∧ cs.head? = some '\n') := by
  rintro ⟨rfl, hh⟩
  cases cs with
  | nil => exact absurd hh (by simp)
  | cons d t =>
    injection hh with hh
    exact h t rfl (by rw [hh])

theorem bool_ne_true {b : Bool} (h : ¬b = true) : b = false := by
  cases b
  · rfl
  · exact absurd rfl h

theorem ps_nil_iff {s : List Char} : pySplitlines s = [] ↔ s = [] := by
  induction s using pySplitlines.induct with
  | case1 => simp [pySplitlines]
  | case2 cs ih => rw [ps_crlf]; simp
  | case3 c cs hg hb ih =>
    rw [ps_cons_break cs hb (guard_conv hg)]
    simp
  | case4 c cs hg hb hps =>
    rw [ps_cons_nb_nil (bool_ne_true hb) hps]
    simp
  | case5 c cs hg hb l ls hps ih =>
    rw [ps_cons_nb_cons (bool_ne_true hb) hps]
    simp

theorem mem_of_mem_pySplitlines {f s : List Char} {c : Char}
    (hf : f ∈ pySplitlines s) (hc : c ∈ f) : c ∈ s := by
  induction s using pySplitlines.induct generalizing f with
  | case1 => exact absurd hf (by simp [pySplitlines])
  | case2 cs ih =>
    rw [ps_crlf] at hf
    rcases List.mem_cons.1 hf with rfl | hf
    · exact absurd hc (by simp)
    · exact List.mem_cons_of_mem _ (List.mem_cons_of_mem _ (ih hf hc))
  | case3 c2 cs hg hb ih =>
    rw [ps_cons_break cs hb (guard_conv hg)] at hf
    rcases List.mem_cons.1 hf with rfl | hf
    · exact absurd hc (by simp)
    · exact List.mem_cons_of_mem _ (ih hf hc)
  | case4 c2 cs hg hb hps =>
    rw [ps_cons_nb_nil (bool_ne_true hb) hps] at hf
    rw [List.mem_singleton] at hf
    subst hf
    rw [List.mem_singleton] at hc
    subst hc
    exact List.mem_cons_self _ _
  | case5 c2 cs hg hb l ls hps ih =>
    rw [ps_cons_nb_cons (bool_ne_true hb) hps] at hf
    rcases List.mem_cons.1 hf with rfl | hf
    · rcases List.mem_cons.1 hc with rfl | hc
      · exact List.mem_cons_self _ _
      · exact List.mem_cons_of_mem _ (ih (by rw [hps]; exact List.mem_cons_self l ls) hc)
    · exact List.mem_cons_of_mem _ (ih (by rw [hps]; exact List.mem_cons_of_mem l hf) hc)

theorem no_break_of_mem_pySplitlines {f s : List Char} {c : Char}
    (hf : f ∈ pySplitlines s) (hc : c ∈ f) : isBreak c = false := by
  induction s using pySplitlines.induct generalizing f with
  | case1 => exact absurd hf (by simp [pySplitlines])
  | case2 cs ih =>
    rw [ps_crlf] at hf
    rcases List.mem_cons.1 hf with rfl | hf
    · exact absurd hc (by simp)
    · exact ih hf hc
  | case3 c2 cs hg hb ih =>
    rw [ps_cons_break cs hb (guard_conv hg)] at hf
    rcases List.mem_cons.1 hf with rfl | hf
    · exact absurd hc (by simp)
    · exact ih hf hc
  | case4 c2 cs hg hb hps =>
    rw [ps_cons_nb_nil (bool_ne_true hb) hps] at hf
    rw [List.mem_singleton] at hf
    subst hf
    rw [List.mem_singleton] at hc
    subst hc
    exact bool_ne_true hb
  | case5 c2 cs hg hb l ls hps ih =>
    rw [ps_cons_nb_cons (bool_ne_true hb) hps] at hf
    rcases List.mem_cons.1 hf with rfl | hf
    · rcases List.mem_cons.1 hc with rfl | hc
      · exact bool_ne_true hb
      · exact ih (by rw [hps]; exact List.mem_cons_self l ls) hc
    · exact ih (by rw [hps]; exact List.mem_cons_of_mem l hf) hc

theorem getLast?_cons_of_ne_nil {c : Char} {cs : List Char} (h : cs ≠ []) :
    (c :: cs).getLast? = cs.getLast? := by
  cases cs with
  | nil => exact absurd rfl h
  | cons d t => exact List.getLast?_cons_cons

theorem endsBreakOrEmpty_cons {c : Char} {cs : List Char} (h : cs ≠ []) :
    endsBreakOrEmpty (c :: cs) = endsBreakOrEmpty cs := by
  unfold endsBreakOrEmpty
  rw [getLast?_cons_of_ne_nil h]

theorem head?_append_left {l t : List Char} (h : l ≠ []) :
    (l ++ t).head? = l.head? := by
  cases l with
  | nil => exact absurd rfl h
  | cons a l2 => rfl

theorem ps_singleton_break {b : Char} (hb : isBreak b = true) :
    pySplitlines [b] = [[]] := by
  rw [ps_cons_break [] hb (by simp), show pySplitlines [] = [] from rfl]

/-- Appending one line-boundary character: if the boundary fuses with a
trailing `'\r'` into `"\r\n"` the line list is unchanged; if the text was empty
or already ended in a boundary a new empty line appears; otherwise the open
last line is merely closed. -/
theorem ps_append_break {b : Char} (hb : isBreak b = true) (s : List Char) :
    pySplitlines (s ++ [b]) =
      if b = '\n' ∧ s.getLast? = some '\r' then pySplitlines s
      else if endsBreakOrEmpty s then pySplitlines s ++ [[]]
      else pySplitlines s := by
  induction s using pySplitlines.induct with
  | case1 =>
    rw [List.nil_append, ps_singleton_break hb]
    rw [if_neg (by rintro ⟨_, hx⟩; exact absurd hx (by simp))]
    rw [if_pos (by decide)]
    rfl
  | case2 cs ih =>
    cases cs with
    | nil =>
      rw [show (['\r', '\n'] : List Char) ++ [b] = '\r' :: '\n' :: [b] from rfl,
        ps_crlf, ps_crlf, ps_singleton_break hb]
      rw [if_neg (by
        rintro ⟨_, hx⟩
        have hx2 : '\n' = '\r' := Option.some.inj hx
        exact absurd hx2 (by decide))]
      rw [if_pos (by decide)]
      rfl
    | cons d t =>
      have hgl : ('\r' :: '\n' :: d :: t : List Char).getLast? = (d :: t).getLast? := by
        rw [List.getLast?_cons_cons, List.getLast?_cons_cons]
      have hebe : endsBreakOrEmpty ('\r' :: '\n' :: d :: t) = endsBreakOrEmpty (d :: t) := by
        unfold endsBreakOrEmpty
        rw [hgl]
      rw [show ('\r' :: '\n' :: (d :: t) : List Char) ++ [b] =
          '\r' :: '\n' :: ((d :: t) ++ [b]) from rfl, ps_crlf, ps_crlf, ih, hgl, hebe]
      by_cases hC1 : b = '\n' ∧ (d :: t).getLast? = some '\r'
      · rw [if_pos hC1, if_pos hC1]
      · rw [if_neg hC1, if_neg hC1]
        by_cases hC2 : endsBreakOrEmpty (d :: t)
        · rw [if_pos hC2, if_pos hC2, List.cons_append]
        · rw [if_neg hC2, if_neg hC2]
  | case3 c cs hg hb2 ih =>
    cases cs with
    | nil =>
      by_cases hcb : c = '\r' ∧ b = '\n'
      · obtain ⟨rfl, rfl⟩ := hcb
        rw [show (['\r'] : List Char) ++ ['\n'] = '\r' :: '\n' :: [] from rfl, ps_crlf]
        rw [if_pos ⟨rfl, rfl⟩]
        rw [ps_cons_break [] hb2 (by simp)]
      · have hg2 : ¬(c = '\r' ∧ ([b] : List Char).head? = some '\n') := by
          rintro ⟨rfl, hx⟩
          exact hcb ⟨rfl, (Option.some.inj hx).symm ▸ rfl⟩
        rw [show ([c] : List Char) ++ [b] = c :: [b] from rfl,
          ps_cons_break [b] hb2 hg2, ps_singleton_break hb,
          ps_cons_break [] hb2 (by simp)]
        rw [if_neg (by
          rintro ⟨rfl, hx⟩
          exact hcb ⟨Option.some.inj hx, rfl⟩)]
        rw [if_pos (show endsBreakOrEmpty [c] = true by
          simpa [endsBreakOrEmpty] using hb2)]
        rfl
    | cons d t =>
      have hne : (d :: t : List Char) ≠ [] := by simp
      have hg2 : ¬(c = '\r' ∧ ((d :: t) ++ [b]).head? = some '\n') := by
        rw [head?_append_left hne]
        exact guard_conv hg
      have hgl : (c :: d :: t : List Char).getLast? = (d :: t).getLast? :=
        List.getLast?_cons_cons
      have hebe : endsBreakOrEmpty (c :: d :: t) = endsBreakOrEmpty (d :: t) := by
        unfold endsBreakOrEmpty
        rw [hgl]
      rw [show (c :: (d :: t) : List Char) ++ [b] = c :: ((d :: t) ++ [b]) from rfl,
        ps_cons_break _ hb2 hg2, ps_cons_break _ hb2 (guard_conv hg), ih, hgl, hebe]
      by_cases hC1 : b = '\n' ∧ (d :: t).getLast? = some '\r'
      · rw [if_pos hC1, if_pos hC1]
      · rw [if_neg hC1, if_neg hC1]
        by_cases hC2 : endsBreakOrEmpty (d :: t)
        · rw [if_pos hC2, if_pos hC2, List.cons_append]
        · rw [if_neg hC2, if_neg hC2]
  | case4 c cs hg hb2 hps =>
    have hb3 := bool_ne_true hb2
    obtain rfl : cs = [] := ps_nil_iff.1 hps
    rw [show ([c] : List Char) ++ [b] = c :: [b] from rfl,
      ps_cons_nb_cons hb3 (ps_singleton_break hb), ps_cons_nb_nil hb3 hps]
    rw [if_neg (by
      rintro ⟨rfl, hx⟩
      have hc : c = '\r' := Option.some.inj hx
      subst hc
      exact absurd hb3 (by decide))]
    rw [if_neg (by simp [endsBreakOrEmpty, hb3])]
  | case5 c cs hg hb2 l ls hps ih =>
    have hb3 := bool_ne_true hb2
    have hne : cs ≠ [] := by
      intro h
      rw [h, show pySplitlines [] = [] from rfl] at hps
      exact absurd hps (by simp)
    have hgl : (c :: cs : List Char).getLast? = cs.getLast? := getLast?_cons_of_ne_nil hne
    have hebe : endsBreakOrEmpty (c :: cs) = endsBreakOrEmpty cs :=
      endsBreakOrEmpty_cons hne
    rw [List.cons_append, hgl, hebe]
    by_cases hC1 : b = '\n' ∧ cs.getLast? = some '\r'
    · have hx : pySplitlines (cs ++ [b]) = l :: ls := by
        rw [ih, if_pos hC1, hps]
      rw [if_pos hC1, ps_cons_nb_cons hb3 hx, ps_cons_nb_cons hb3 hps]
    · by_cases hC2 : endsBreakOrEmpty cs
      · have hx : pySplitlines (cs ++ [b]) = l :: (ls ++ [[]]) := by
          rw [ih, if_neg hC1, if_pos hC2, hps, List.cons_append]
        rw [if_neg hC1, if_pos hC2, ps_cons_nb_cons hb3 hx, ps_cons_nb_cons hb3 hps,
          List.cons_append]
      · have hx : pySplitlines (cs ++ [b]) = l :: ls := by
          rw [ih, if_neg hC1, if_neg hC2, hps]
        rw [if_neg hC1, if_neg hC2, ps_cons_nb_cons hb3 hx, ps_cons_nb_cons hb3 hps]

theorem appendToLast_cons_cons (l l2 : List Char) (ls : List (List Char)) (x : Char) :
    appendToLast (l :: l2 :: ls) x = l :: appendToLast (l2 :: ls) x := rfl

theorem mem_appendToLast {f : List Char} {L : List (List Char)} {x : Char}
    (h : f ∈ appendToLast L x) : f ∈ L ∨ f.getLast? = some x := by
  induction L with
  | nil =>
    rw [show appendToLast [] x = [[x]] from rfl, List.mem_singleton] at h
    subst h
    exact Or.inr rfl
  | cons l ls ih =>
    cases ls with
    | nil =>
      rw [show appendToLast [l] x = [l ++ [x]] from rfl, List.mem_singleton] at h
      subst h
      exact Or.inr (List.getLast?_concat l)
    | cons l2 ls2 =>
      rw [appendToLast_cons_cons] at h
      rcases List.mem_cons.1 h with rfl | h
      · exact Or.inl (List.mem_cons_self _ _)
      · rcases ih h with h2 | h2
        · exact Or.inl (List.mem_cons_of_mem l h2)
        · exact Or.inr h2

/-- Appending one non-boundary character: it opens a new line if the text was
empty or ended in a boundary, and otherwise extends the last line. -/
theorem ps_append_nonbreak {x : Char} (hx : isBreak x = false) (s : List Char) :
    pySplitlines (s ++ [x]) =
      if endsBreakOrEmpty s then pySplitlines s ++ [[x]]
      else appendToLast (pySplitlines s) x := by
  induction s using pySplitlines.induct with
  | case1 =>
    rw [List.nil_append, ps_cons_nb_nil hx (show pySplitlines [] = [] from rfl), if_pos (by decide)]
    rfl
  | case2 cs ih =>
    cases cs with
    | nil =>
      rw [show (['\r', '\n'] : List Char) ++ [x] = '\r' :: '\n' :: [x] from rfl,
        ps_crlf, ps_crlf, ps_cons_nb_nil hx (show pySplitlines [] = [] from rfl), if_pos (by decide)]
      rfl
    | cons d t =>
      have hgl : ('\r' :: '\n' :: d :: t : List Char).getLast? = (d :: t).getLast? := by
        rw [List.getLast?_cons_cons, List.getLast?_cons_cons]
      have hebe : endsBreakOrEmpty ('\r' :: '\n' :: d :: t) = endsBreakOrEmpty (d :: t) := by
        unfold endsBreakOrEmpty
        rw [hgl]
      rw [show ('\r' :: '\n' :: (d :: t) : List Char) ++ [x] =
          '\r' :: '\n' :: ((d :: t) ++ [x]) from rfl, ps_crlf, ps_crlf, ih, hebe]
      by_cases hC2 : endsBreakOrEmpty (d :: t)
      · rw [if_pos hC2, if_pos hC2, List.cons_append]
      · rw [if_neg hC2, if_neg hC2]
        have hpsne : pySplitlines (d :: t) ≠ [] := by
          intro hcon
          exact absurd (ps_nil_iff.1 hcon) (by simp)
        cases hps : pySplitlines (d :: t) with
        | nil => exact absurd hps hpsne
        | cons l2 ls2 => rw [appendToLast_cons_cons]
  | case3 c cs hg hb2 ih =>
    cases cs with
    | nil =>
      have hg2 : ¬(c = '\r' ∧ ([x] : List Char).head? = some '\n') := by
        rintro ⟨rfl, hh⟩
        have : x = '\n' := Option.some.inj hh
        subst this
        exact absurd hx (by decide)
      rw [show ([c] : List Char) ++ [x] = c :: [x] from rfl,
        ps_cons_break [x] hb2 hg2, ps_cons_nb_nil hx (show pySplitlines [] = [] from rfl),
        ps_cons_break [] hb2 (by simp)]
      rw [if_pos (show endsBreakOrEmpty [c] = true by
        simpa [endsBreakOrEmpty] using hb2)]
      rfl
    | cons d t =>
      have hne : (d :: t : List Char) ≠ [] := by simp
      have hg2 : ¬(c = '\r' ∧ ((d :: t) ++ [x]).head? = some '\n') := by
        rw [head?_append_left hne]
        exact guard_conv hg
      have hebe : endsBreakOrEmpty (c :: d :: t) = endsBreakOrEmpty (d :: t) :=
        endsBreakOrEmpty_cons hne
      rw [show (c :: (d :: t) : List Char) ++ [x] = c :: ((d :: t) ++ [x]) from rfl,
        ps_cons_break _ hb2 hg2, ps_cons_break _ hb2 (guard_conv hg), ih, hebe]
      by_cases hC2 : endsBreakOrEmpty (d :: t)
      · rw [if_pos hC2, if_pos hC2, List.cons_append]
      · rw [if_neg hC2, if_neg hC2]
        have hpsne : pySplitlines (d :: t) ≠ [] := by
          intro hcon
          exact absurd (ps_nil_iff.1 hcon) (by simp)
        cases hps : pySplitlines (d :: t) with
        | nil => exact absurd hps hpsne
        | cons l2 ls2 => rw [appendToLast_cons_cons]
  | case4 c cs hg hb2 hps =>
    have hb3 := bool_ne_true hb2
    obtain rfl : cs = [] := ps_nil_iff.1 hps
    rw [show ([c] : List Char) ++ [x] = c :: [x] from rfl,
      ps_cons_nb_cons hb3 (ps_cons_nb_nil hx (show pySplitlines [] = [] from rfl)), ps_cons_nb_nil hb3 hps]
    rw [if_neg (by simp [endsBreakOrEmpty, hb3])]
    rfl
  | case5 c cs hg hb2 l ls hps ih =>
    have hb3 := bool_ne_true hb2
    have hne : cs ≠ [] := by
      intro h
      rw [h, show pySplitlines [] = [] from rfl] at hps
      exact absurd hps (by simp)
    have hebe : endsBreakOrEmpty (c :: cs) = endsBreakOrEmpty cs :=
      endsBreakOrEmpty_cons hne
    rw [List.cons_append, hebe]
    by_cases hC2 : endsBreakOrEmpty cs
    · have h2 : pySplitlines (cs ++ [x]) = l :: (ls ++ [[x]]) := by
        rw [ih, if_pos hC2, hps, List.cons_append]
      rw [if_pos hC2, ps_cons_nb_cons hb3 h2, ps_cons_nb_cons hb3 hps,
        List.cons_append]
    · cases ls with
      | nil =>
        have h2 : pySplitlines (cs ++ [x]) = (l ++ [x]) :: [] := by
          rw [ih, if_neg hC2, hps]
          rfl
        rw [if_neg hC2, ps_cons_nb_cons hb3 h2, ps_cons_nb_cons hb3 hps]
        rfl
      | cons l2 ls2 =>
        have h2 : pySplitlines (cs ++ [x]) = l :: appendToLast (l2 :: ls2) x := by
          rw [ih, if_neg hC2, hps, appendToLast_cons_cons]
        rw [if_neg hC2, ps_cons_nb_cons hb3 h2, ps_cons_nb_cons hb3 hps,
          appendToLast_cons_cons]

/-- Appending one whitespace character cannot create or change a line that
ends in a non-whitespace character. -/
theorem mem_ps_append_space {x : Char} (hx : isSpace x = true) {s f : List Char}
    {lc : Char} (hf : f ∈ pySplitlines (s ++ [x])) (hl : f.getLast? = some lc)
    (hls : isSpace lc = false) : f ∈ pySplitlines s := by
  by_cases hb : isBreak x
  · rw [ps_append_break hb] at hf
    split at hf
    · exact hf
    · split at hf
      · rcases List.mem_append.1 hf with hf | hf
        · exact hf
        · rw [List.mem_singleton] at hf
          subst hf
          exact absurd hl (by simp)
      · exact hf
  · rw [ps_append_nonbreak (bool_ne_true hb)] at hf
    split at hf
    · rcases List.mem_append.1 hf with hf | hf
      · exact hf
      · rw [List.mem_singleton] at hf
        subst hf
        rw [List.getLast?_singleton] at hl
        have hxl : x = lc := Option.some.inj hl
        subst hxl
        exact absurd hx (by simp [hls])
    · rcases mem_appendToLast hf with hf | hf
      · exact hf
      · rw [hf] at hl
        have hxl : x = lc := Option.some.inj hl
        subst hxl
        exact absurd hx (by simp [hls])

theorem rstrip_singleton_space {x : Char} (hx : isSpace x = true) :
    rstrip [x] = [] := by
  rw [show ([x] : List Char) = x :: [] from rfl, rstrip_cons]
  simp [hx, show rstrip [] = [] from rfl]

/-- A line of a text that ends in a non-whitespace character is still a line
after the text is right-stripped. -/
theorem mem_ps_rstrip {s f : List Char} {lc : Char} (hf : f ∈ pySplitlines s)
    (hl : f.getLast? = some lc) (hls : isSpace lc = false) :
    f ∈ pySplitlines (rstrip s) := by
  have main : ∀ n : Nat, ∀ s : List Char, s.length ≤ n → f ∈ pySplitlines s →
      f ∈ pySplitlines (rstrip s) := by
    intro n
    induction n with
    | zero =>
      intro s hlen hf2
      have hs0 : s = [] := List.eq_nil_of_length_eq_zero (Nat.le_zero.1 hlen)
      rw [hs0] at hf2 ⊢
      exact hf2
    | succ n ihn =>
      intro s hlen hf2
      by_cases heq : rstrip s = s
      · rw [heq]
        exact hf2
      · have hsne : s ≠ [] := by
          intro hcon
          rw [hcon] at heq
          exact heq rfl
        obtain ⟨s0, y, rfl⟩ := (List.eq_nil_or_concat s).resolve_left hsne
        rw [List.concat_eq_append] at heq hlen hf2 ⊢
        by_cases hy : isSpace y
        · have hr : rstrip (s0 ++ [y]) = rstrip s0 := by
            rw [rstrip_append, if_pos (rstrip_singleton_space hy)]
          rw [hr]
          have hf3 : f ∈ pySplitlines s0 := mem_ps_append_space hy hf2 hl hls
          have hlen2 : s0.length ≤ n := by
            rw [List.length_append] at hlen
            simp at hlen
            omega
          exact ihn s0 hlen2 hf3
        · exact absurd (rstrip_eq_self_of_getLast? (List.getLast?_concat s0)
            (bool_ne_true hy)) heq
  exact main s.length s (le_refl _) hf

/-- A line of a text that starts with a non-whitespace character is still a
line after leading whitespace is dropped. -/
theorem mem_ps_dropWhile {s f : List Char} {hc : Char} (hf : f ∈ pySplitlines s)
    (hh : f.head? = some hc) (hhs : isSpace hc = false) :
    f ∈ pySplitlines (s.dropWhile isSpace) := by
  have hfne : f ≠ [] := by
    intro hcon
    rw [hcon] at hh
    exact absurd hh (by simp)
  induction s using pySplitlines.induct with
  | case1 => exact absurd hf (by simp [pySplitlines])
  | case2 cs ih =>
    rw [ps_crlf] at hf
    rcases List.mem_cons.1 hf with rfl | hf
    · exact absurd rfl hfne
    · rw [show ('\r' :: '\n' :: cs : List Char).dropWhile isSpace
          = cs.dropWhile isSpace from by
        rw [List.dropWhile_cons, if_pos (by decide), List.dropWhile_cons,
          if_pos (by decide)]]
      exact ih hf
  | case3 c cs hg hb ih =>
    rw [ps_cons_break cs hb (guard_conv hg)] at hf
    rcases List.mem_cons.1 hf with rfl | hf
    · exact absurd rfl hfne
    · rw [List.dropWhile_cons, if_pos (isSpace_of_isBreak hb)]
      exact ih hf
  | case4 c cs hg hb hps =>
    have hb3 := bool_ne_true hb
    rw [ps_cons_nb_nil hb3 hps] at hf
    rw [List.mem_singleton] at hf
    subst hf
    injection hh with hh
    subst hh
    rw [List.dropWhile_cons, if_neg (by simp [hhs])]
    rw [ps_cons_nb_nil hb3 hps]
    exact List.mem_singleton_self _
  | case5 c cs hg hb l ls hps ih =>
    have hb3 := bool_ne_true hb
    rw [ps_cons_nb_cons hb3 hps] at hf
    by_cases hsp : isSpace c
    · rw [List.dropWhile_cons, if_pos hsp]
      rcases List.mem_cons.1 hf with rfl | hf
      · injection hh with hh
        subst hh
        exact absurd hsp (by simp [hhs])
      · exact ih (by rw [hps]; exact List.mem_cons_of_mem l hf)
    · rw [List.dropWhile_cons, if_neg hsp, ps_cons_nb_cons hb3 hps]
      exact hf

/-- A line with non-whitespace first and last characters survives `strip`. -/
theorem mem_ps_strip {s f : List Char} {hc lc : Char} (hf : f ∈ pySplitlines s)
    (hh : f.head? = some hc) (hhs : isSpace hc = false)
    (hl : f.getLast? = some lc) (hls : isSpace lc = false) :
    f ∈ pySplitlines (strip s) :=
  mem_ps_rstrip (mem_ps_dropWhile hf hh hhs) hl hls


/-- Splitting a text of the form `s ++ "\n" ++ u` splits `s ++ "\n"` and `u`
independently. -/
theorem ps_append_nl (s u : List Char) :
    pySplitlines (s ++ '\n' :: u) = pySplitlines (s ++ ['\n']) ++ pySplitlines u := by
  induction s using pySplitlines.induct with
  | case1 =>
    rw [List.nil_append, List.nil_append,
      ps_cons_break u (by decide) (by simp), ps_singleton_break (by decide)]
    rfl
  | case2 cs ih =>
    rw [show ('\r' :: '\n' :: cs : List Char) ++ '\n' :: u =
        '\r' :: '\n' :: (cs ++ '\n' :: u) from rfl, ps_crlf,
      show ('\r' :: '\n' :: cs : List Char) ++ ['\n'] =
        '\r' :: '\n' :: (cs ++ ['\n']) from rfl, ps_crlf, ih, List.cons_append]
  | case3 c cs hg hb ih =>
    cases cs with
    | nil =>
      by_cases hc : c = '\r'
      · subst hc
        rw [show (['\r'] : List Char) ++ '\n' :: u = '\r' :: '\n' :: u from rfl,
          ps_crlf, show (['\r'] : List Char) ++ ['\n'] = '\r' :: '\n' :: [] from rfl,
          ps_crlf]
        rfl
      · rw [show ([c] : List Char) ++ '\n' :: u = c :: '\n' :: u from rfl,
          ps_cons_break _ hb (by rintro ⟨rfl, _⟩; exact hc rfl),
          ps_cons_break u (by decide) (by simp),
          show ([c] : List Char) ++ ['\n'] = c :: ['\n'] from rfl,
          ps_cons_break _ hb (by rintro ⟨rfl, _⟩; exact hc rfl),
          ps_singleton_break (by decide)]
        rfl
    | cons d t =>
      have hne : (d :: t : List Char) ≠ [] := by simp
      have hg1 : ¬(c = '\r' ∧ ((d :: t) ++ '\n' :: u).head? = some '\n') := by
        rw [head?_append_left hne]
        exact guard_conv hg
      have hg2 : ¬(c = '\r' ∧ ((d :: t) ++ ['\n']).head? = some '\n') := by
        rw [head?_append_left hne]
        exact guard_conv hg
      rw [show (c :: (d :: t) : List Char) ++ '\n' :: u =
          c :: ((d :: t) ++ '\n' :: u) from rfl, ps_cons_break _ hb hg1,
        show (c :: (d :: t) : List Char) ++ ['\n'] =
          c :: ((d :: t) ++ ['\n']) from rfl, ps_cons_break _ hb hg2,
        ih, List.cons_append]
      rfl
  | case4 c cs hg hb hps =>
    have hb3 := bool_ne_true hb
    obtain rfl : cs = [] := ps_nil_iff.1 hps
    rw [show ([c] : List Char) ++ '\n' :: u = c :: '\n' :: u from rfl,
      ps_cons_nb_cons hb3 (ps_cons_break u (by decide) (by simp)),
      show ([c] : List Char) ++ ['\n'] = c :: ['\n'] from rfl,
      ps_cons_nb_cons hb3 (ps_singleton_break (by decide))]
    rfl
  | case5 c cs hg hb l ls hps ih =>
    have hb3 := bool_ne_true hb
    have h1 : pySplitlines (cs ++ ['\n']) ≠ [] := by
      intro hcon
      have := ps_nil_iff.1 hcon
      exact absurd this (by simp)
    cases hx : pySplitlines (cs ++ ['\n']) with
    | nil => exact absurd hx h1
    | cons l2 ls2 =>
      have h2 : pySplitlines (cs ++ '\n' :: u) = l2 :: (ls2 ++ pySplitlines u) := by
        rw [ih, hx, List.cons_append]
      rw [List.cons_append, ps_cons_nb_cons hb3 h2,
        show (c :: cs : List Char) ++ ['\n'] = c :: (cs ++ ['\n']) from rfl,
        ps_cons_nb_cons hb3 hx, List.cons_append]

/-- Every line of a text is still a line after appending a final newline. -/
theorem mem_ps_append_newline {s f : List Char} (hf : f ∈ pySplitlines s) :
    f ∈ pySplitlines (s ++ ['\n']) := by
  rw [ps_append_break (by decide)]
  split
  · exact hf
  · split
    · exact List.mem_append_left _ hf
    · exact hf

/-- A nonempty text without line boundaries is a single line. -/
theorem ps_single {f : List Char} (hne : f ≠ [])
    (hnb : ∀ c ∈ f, isBreak c = false) : pySplitlines f = [f] := by
  induction f with
  | nil => exact absurd rfl hne
  | cons a t ih =>
    have ha : isBreak a = false := hnb a (List.mem_cons_self a t)
    cases t with
    | nil => exact ps_cons_nb_nil ha rfl
    | cons b t2 =>
      have ht : pySplitlines (b :: t2) = [b :: t2] :=
        ih (by simp) (fun c hc => hnb c (List.mem_cons_of_mem a hc))
      exact ps_cons_nb_cons ha ht

/-- Joining nonempty boundary-free pieces with newlines and splitting again
recovers the pieces. -/
theorem ps_joinNl {L : List (List Char)} (hne : L ≠ [])
    (h : ∀ a ∈ L, a ≠ [] ∧ ∀ c ∈ a, isBreak c = false) :
    pySplitlines (joinNl L) = L := by
  induction L with
  | nil => exact absurd rfl hne
  | cons a t ih =>
    cases t with
    | nil =>
      rw [show joinNl [a] = a from rfl]
      obtain ⟨ha1, ha2⟩ := h a (List.mem_cons_self a [])
      exact ps_single ha1 ha2
    | cons b t2 =>
      rw [show joinNl (a :: b :: t2) = a ++ '\n' :: joinNl (b :: t2) from rfl,
        ps_append_nl]
      obtain ⟨ha1, ha2⟩ := h a (List.mem_cons_self a (b :: t2))
      have hps : pySplitlines (a ++ ['\n']) = [a] := by
        obtain ⟨d, hd⟩ := getLast?_eq_some_of_ne_nil ha1
        have hdnb : isBreak d = false := ha2 d (mem_of_getLast?_eq hd)
        have hC1 : ¬(('\n' : Char) = '\n' ∧ a.getLast? = some '\r') := by
          rintro ⟨_, hx⟩
          rw [hd] at hx
          have hdr : d = '\r' := Option.some.inj hx
          subst hdr
          exact absurd hdnb (by decide)
        have hC2 : ¬(endsBreakOrEmpty a = true) := by
          unfold endsBreakOrEmpty
          rw [hd]
          simp [hdnb]
        rw [ps_append_break (by decide), if_neg hC1, if_neg hC2, ps_single ha1 ha2]
      rw [hps, ih (by simp) (fun x hx => h x (List.mem_cons_of_mem a hx))]
      rfl

/-! Properties of the clauses produced by `extract_prolog1`. -/

theorem mem_extract_prolog1 {f resp : List Char} (hf : f ∈ extract_prolog1 resp) :
    ∃ l, l ∈ splitOnChar '\n' resp ∧ strip l ≠ [] ∧ ¬((strip l).head? = some '%') ∧
      f = (if (strip l).getLast? = some '.' then strip l else strip l ++ ['.']) := by
  simp only [extract_prolog1, List.mem_map, List.mem_filter] at hf
  obtain ⟨l0, ⟨hl0mem, hcond⟩, rfl⟩ := hf
  obtain ⟨l, hl, rfl⟩ := hl0mem
  rw [Bool.and_eq_true, Bool.not_eq_true', Bool.not_eq_true', List.isEmpty_eq_false,
    decide_eq_false_iff_not] at hcond
  exact ⟨l, hl, hcond.1, hcond.2, rfl⟩

theorem extract1_getLast {f resp : List Char} (hf : f ∈ extract_prolog1 resp) :
    f.getLast? = some '.' := by
  obtain ⟨l, _, hne, _, rfl⟩ := mem_extract_prolog1 hf
  split
  · next h => exact h
  · exact List.getLast?_concat _

theorem extract1_ne_nil {f resp : List Char} (hf : f ∈ extract_prolog1 resp) :
    f ≠ [] := by
  obtain ⟨l, _, hne, _, rfl⟩ := mem_extract_prolog1 hf
  split
  · exact hne
  · simp

theorem extract1_head {f resp : List Char} (hf : f ∈ extract_prolog1 resp) :
    ∃ hc, f.head? = some hc ∧ isSpace hc = false ∧ hc ≠ '%' := by
  obtain ⟨l, _, hne, hpc, rfl⟩ := mem_extract_prolog1 hf
  cases hl0 : strip l with
  | nil => exact absurd hl0 hne
  | cons c r =>
    have hcs : isSpace c = false := strip_head? hl0
    have hcp : c ≠ '%' := by
      intro hcon
      rw [hl0, hcon] at hpc
      exact hpc rfl
    refine ⟨c, ?_, hcs, hcp⟩
    split
    · rfl
    · rw [head?_append_left (by simp)]
      rfl

theorem extract1_chars {f resp : List Char} (hf : f ∈ extract_prolog1 resp) :
    ∀ c ∈ f, c = '.' ∨ (c ∈ resp ∧ c ≠ '\n') := by
  obtain ⟨l, hl, hne, _, rfl⟩ := mem_extract_prolog1 hf
  intro c hc
  have hmain : c ∈ strip l → c ∈ resp ∧ c ≠ '\n' := by
    intro hcl
    have hcl2 := mem_of_mem_strip hcl
    refine ⟨mem_of_mem_splitOnChar hl hcl2, ?_⟩
    intro hcon
    subst hcon
    exact mem_splitOnChar_not_sep hl hcl2
  split at hc
  · exact Or.inr (hmain hc)
  · rcases List.mem_append.1 hc with hc | hc
    · exact Or.inr (hmain hc)
    · rw [List.mem_singleton] at hc
      exact Or.inl hc

theorem extract1_no_break {f resp : List Char}
    (hbr : ∀ c ∈ resp, isBreak c = true → c = '\n')
    (hf : f ∈ extract_prolog1 resp) : ∀ c ∈ f, isBreak c = false := by
  intro c hc
  rcases extract1_chars hf c hc with rfl | ⟨hcr, hcn⟩
  · decide
  · cases hb : isBreak c with
    | false => rfl
    | true => exact absurd (hbr c hcr hb) hcn

/-! The mcrws1 assert pipeline: deduplication and idempotence. -/

theorem assert1_addedFacts (kb resp : List Char) :
    (assert_into_session1 kb resp).addedFacts =
      (extract_prolog1 resp).filter (fun f => decide (f ∉ pySplitlines kb)) := by
  unfold assert_into_session1
  simp only []
  split
  · rfl
  · rfl

theorem assert1_kb_of_isEmpty {kb resp : List Char}
    (h : ((extract_prolog1 resp).filter
      (fun f => decide (f ∉ pySplitlines kb))).isEmpty = true) :
    (assert_into_session1 kb resp).knowledgeBase = kb := by
  unfold assert_into_session1
  simp only []
  rw [if_pos h]

theorem assert1_kb_of_not_isEmpty {kb resp : List Char}
    (h : ¬((extract_prolog1 resp).filter
      (fun f => decide (f ∉ pySplitlines kb))).isEmpty = true) :
    (assert_into_session1 kb resp).knowledgeBase =
      strip (kb ++ '\n' :: joinNl ((extract_prolog1 resp).filter
        (fun f => decide (f ∉ pySplitlines kb)))) := by
  unfold assert_into_session1
  simp only []
  rw [if_neg h]

/-- After a successful (or no-op) assert, every clause the normalizer produced
from the response occurs verbatim among the lines of the resulting knowledge
base, provided the response contains no line boundary other than `'\n'`. -/
theorem assert1_facts_in_result {kb resp : List Char}
    (hbr : ∀ c ∈ resp, isBreak c = true → c = '\n') :
    ∀ f ∈ extract_prolog1 resp,
      f ∈ pySplitlines ((assert_into_session1 kb resp).knowledgeBase) := by
  intro f hf
  by_cases hem : ((extract_prolog1 resp).filter
      (fun f => decide (f ∉ pySplitlines kb))).isEmpty = true
  · rw [assert1_kb_of_isEmpty hem]
    by_cases hmem : f ∈ pySplitlines kb
    · exact hmem
    · exfalso
      have hfa : f ∈ (extract_prolog1 resp).filter
          (fun f => decide (f ∉ pySplitlines kb)) :=
        List.mem_filter.2 ⟨hf, by simp [hmem]⟩
      rw [List.isEmpty_iff.1 hem] at hfa
      exact absurd hfa (by simp)
  · rw [assert1_kb_of_not_isEmpty hem]
    have hne : (extract_prolog1 resp).filter
        (fun f => decide (f ∉ pySplitlines kb)) ≠ [] := by
      intro hcon
      rw [hcon] at hem
      exact hem rfl
    have hJ : pySplitlines (joinNl ((extract_prolog1 resp).filter
        (fun f => decide (f ∉ pySplitlines kb)))) =
        (extract_prolog1 resp).filter (fun f => decide (f ∉ pySplitlines kb)) :=
      ps_joinNl hne (fun a ha =>
        ⟨extract1_ne_nil (List.mem_of_mem_filter ha),
         extract1_no_break hbr (List.mem_of_mem_filter ha)⟩)
    have hin : f ∈ pySplitlines (kb ++ '\n' :: joinNl ((extract_prolog1 resp).filter
        (fun f => decide (f ∉ pySplitlines kb)))) := by
      rw [ps_append_nl]
      by_cases hmem : f ∈ pySplitlines kb
      · exact List.mem_append_left _ (mem_ps_append_newline hmem)
      · refine List.mem_append_right _ ?_
        rw [hJ]
        exact List.mem_filter.2 ⟨hf, by simp [hmem]⟩
    obtain ⟨hc, hh, hhs, _⟩ := extract1_head hf
    exact mem_ps_strip hin hh hhs (extract1_getLast hf) (by decide)

theorem dropWhile_strip (s : List Char) :
    (strip s).dropWhile isSpace = strip s := by
  cases hs : strip s with
  | nil => rfl
  | cons c r =>
    rw [List.dropWhile_cons, if_neg (by simp [strip_head? hs])]

theorem rstrip_strip (s : List Char) : rstrip (strip s) = strip s := by
  unfold strip
  exact rstrip_idem _

/-! The claims. -/

/-- C1, counterexample to the claim as stated: in mcrws1's query pipeline a
boolean `True` outcome is shaped to the token `"Yes"`, not `"true"`, and in
mcrws2's pipeline an empty binding-list outcome is passed through unchanged
instead of becoming `"No"`. -/
theorem claim_C1_counterexample :
    result_for_llm1 (.pyBool true) = .pyStr "Yes" ∧
    result_for_llm1 (.pyBool true) ≠ .pyStr "true" ∧
    result_for_llm2 (.pyList []) = .pyList [] ∧
    result_for_llm2 (.pyList []) ≠ .pyStr "No" := by
  refine ⟨rfl, ?_, rfl, ?_⟩
  · intro h
    injection h with h
    exact absurd h (by decide)
  · intro h
    exact PyVal.noConfusion h

/-- C1 (amended): the claimed shaping (`True` to `"true"`, empty or false to
`"No"`, non-empty binding lists passed through) holds in mcrws3, which
additionally maps the pytholog no-solution marker `['No']` to `"No"`; in
mcrws1 every truthy outcome becomes `"Yes"` and every falsy one `"No"`; in
mcrws2 only the identical booleans are shaped (`True` to `"true"`, `False` to
`"No"`) and every other outcome, including an empty binding list, is passed
through unchanged. -/
theorem claim_C1_amended :
    (result_for_llm3 (.pyBool true) = .pyStr "true") ∧
    (∀ v : PyVal, truthy v = false → result_for_llm3 v = .pyStr "No") ∧
    (result_for_llm3 (.pyList [.pyStr "No"]) = .pyStr "No") ∧
    (∀ ds : List (List (String × String)), ds ≠ [] →
      result_for_llm3 (.pyList (ds.map PyVal.pyDict)) = .pyList (ds.map PyVal.pyDict)) ∧
    (∀ v : PyVal, truthy v = true → result_for_llm1 v = .pyStr "Yes") ∧
    (∀ v : PyVal, truthy v = false → result_for_llm1 v = .pyStr "No") ∧
    (result_for_llm2 (.pyBool true) = .pyStr "true") ∧
    (result_for_llm2 (.pyBool false) = .pyStr "No") ∧
    (∀ v : PyVal, v ≠ .pyBool true → v ≠ .pyBool false → result_for_llm2 v = v) := by
  refine ⟨rfl, ?_, rfl, ?_, ?_, ?_, rfl, rfl, ?_⟩
  · intro v hv
    cases v with
    | pyBool b =>
      cases b with
      | false => rfl
      | true => exact absurd hv (by simp [truthy])
    | pyStr s => simp [result_for_llm3, hv]
    | pyList xs => simp [result_for_llm3, hv]
    | pyDict es => simp [result_for_llm3, hv]
    | pyNone => rfl
  · intro ds hds
    cases ds with
    | nil => exact absurd rfl hds
    | cons d t =>
      cases t with
      | nil => rfl
      | cons d2 t2 => rfl
  · intro v hv
    simp [result_for_llm1, hv]
  · intro v hv
    simp [result_for_llm1, hv]
  · intro v h1 h2
    cases v with
    | pyBool b =>
      cases b with
      | true => exact absurd rfl h1
      | false => exact absurd rfl h2
    | pyStr s => rfl
    | pyList xs => rfl
    | pyDict es => rfl
    | pyNone => rfl

/-- C1, witness: the amended shaping at concrete outcomes. -/
theorem claim_C1_witness :
    truthy (PyVal.pyList []) = false ∧
    result_for_llm3 (.pyList []) = .pyStr "No" ∧
    truthy (PyVal.pyStr "x") = true ∧
    result_for_llm1 (.pyStr "x") = .pyStr "Yes" ∧
    result_for_llm2 (.pyStr "x") = .pyStr "x" :=
  ⟨rfl, claim_C1_amended.2.1 (.pyList []) rfl, rfl,
   claim_C1_amended.2.2.2.2.1 (.pyStr "x") rfl,
   claim_C1_amended.2.2.2.2.2.2.2.2 (.pyStr "x")
     (fun h => PyVal.noConfusion h) (fun h => PyVal.noConfusion h)⟩

/-- C4, counterexample to the claim as stated: in mcrws1 an assert whose
normalized response is empty does not fail with a translation error; it
reports success with an empty added-clause list (the KB is still unmodified
and not saved). -/
theorem claim_C4_counterexample :
    extract_prolog1 (str "") = [] ∧
    assert_into_session1 (str "a(b).") (str "") =
      ⟨[], str "a(b).", false⟩ := by
  exact ⟨rfl, by decide⟩

/-- C4 (amended): only mcrws3's assert fails (with `ProviderError`, the
realization of `TranslationFailure`) when normalization yields zero clauses,
leaving the KB unmodified and unsaved; mcrws1 (and the identical mcrws2 logic)
return success with an empty added list, also leaving the KB unmodified and
unsaved. -/
theorem claim_C4_amended :
    (∀ kb resp : List Char, extract_prolog3 resp = [] →
      assert_into_session3 kb resp =
        .error (.provider "LLM failed to generate valid Prolog code.")) ∧
    (∀ kb resp : List Char, extract_prolog1 resp = [] →
      assert_into_session1 kb resp = ⟨[], kb, false⟩) := by
  constructor
  · intro kb resp h
    unfold assert_into_session3
    simp only []
    rw [h]
    rfl
  · intro kb resp h
    unfold assert_into_session1
    simp only []
    rw [h]
    rfl

/-- C4, witness: the amended behaviour at a concrete prose response. -/
theorem claim_C4_witness :
    extract_prolog3 (str "No facts found") = [] ∧
    extract_prolog1 (str "% only a comment") = [] ∧
    assert_into_session3 (str "f(x).") (str "No facts found") =
      .error (.provider "LLM failed to generate valid Prolog code.") ∧
    assert_into_session1 (str "f(x).") (str "% only a comment") =
      ⟨[], str "f(x).", false⟩ :=
  ⟨by decide, by decide,
   claim_C4_amended.1 (str "f(x).") (str "No facts found") (by decide),
   claim_C4_amended.2 (str "f(x).") (str "% only a comment") (by decide)⟩

/-- C5, counterexample to the claim as stated: with the deterministic backend
response `"a\rb"` (a carriage return inside the clause), the first assert on
an empty KB appends the clause `"a\rb."`; because `splitlines` then splits at
the `'\r'`, the second identical assert does not find the clause among the KB
lines, adds it again, and changes the KB text - assert is not idempotent. -/
theorem claim_C5_counterexample :
    (assert_into_session1 (str "") (str "a\rb")).knowledgeBase = str "a\rb." ∧
    (assert_into_session1 (assert_into_session1 (str "") (str "a\rb")).knowledgeBase
        (str "a\rb")).addedFacts = [str "a\rb."] ∧
    (assert_into_session1 (assert_into_session1 (str "") (str "a\rb")).knowledgeBase
        (str "a\rb")).knowledgeBase ≠
      (assert_into_session1 (str "") (str "a\rb")).knowledgeBase := by
  refine ⟨by decide, by decide, by decide⟩

/-- C5 (amended): deduplication is exact-text and append-only in the following
sense.  (1) A clause that already occurs verbatim as a line of the KB is never
in the added set.  (2) When clauses survive dedup, the new KB text is exactly
the old text, a newline and the surviving clauses joined by newlines, with
boundary whitespace stripped from the whole (so existing lines are kept in
order; only leading/trailing blank space of the old text is trimmed).
(3) Provided the backend response contains no line-boundary character other
than `'\n'`, a second assert of the same deterministic response against the
resulting KB adds nothing and leaves the KB text unchanged. -/
theorem claim_C5_amended (kb resp : List Char)
    (hbr : ∀ c ∈ resp, isBreak c = true → c = '\n') :
    (∀ f ∈ extract_prolog1 resp, f ∈ pySplitlines kb →
      f ∉ (assert_into_session1 kb resp).addedFacts) ∧
    ((assert_into_session1 kb resp).addedFacts ≠ [] →
      (assert_into_session1 kb resp).knowledgeBase =
        strip (kb ++ '\n' :: joinNl (assert_into_session1 kb resp).addedFacts)) ∧
    (assert_into_session1 (assert_into_session1 kb resp).knowledgeBase resp).addedFacts
      = [] ∧
    (assert_into_session1 (assert_into_session1 kb resp).knowledgeBase resp).knowledgeBase
      = (assert_into_session1 kb resp).knowledgeBase := by
  have hsecond : ((extract_prolog1 resp).filter (fun f => decide
      (f ∉ pySplitlines (assert_into_session1 kb resp).knowledgeBase))) = [] := by
    rw [List.filter_eq_nil_iff]
    intro a ha
    simp only [decide_eq_true_eq, not_not]
    exact assert1_facts_in_result hbr a ha
  refine ⟨?_, ?_, ?_, ?_⟩
  · intro f hf hmem hadd
    rw [assert1_addedFacts] at hadd
    have hdec := (List.mem_filter.1 hadd).2
    rw [decide_eq_true_eq] at hdec
    exact hdec hmem
  · intro hne
    rw [assert1_addedFacts] at hne ⊢
    have hem : ¬((extract_prolog1 resp).filter
        (fun f => decide (f ∉ pySplitlines kb))).isEmpty = true := by
      intro hcon
      exact hne (List.isEmpty_iff.1 hcon)
    rw [assert1_kb_of_not_isEmpty hem]
  · rw [assert1_addedFacts]
    exact hsecond
  · exact assert1_kb_of_isEmpty (by rw [hsecond]; rfl)

/-- C5, witness: the amended dedup/append/idempotence facts at a concrete
KB and response. -/
theorem claim_C5_witness :
    (∀ c ∈ str "q(b).", isBreak c = true → c = '\n') ∧
    ((∀ f ∈ extract_prolog1 (str "q(b)."), f ∈ pySplitlines (str "p(a).") →
      f ∉ (assert_into_session1 (str "p(a).") (str "q(b).")).addedFacts) ∧
    ((assert_into_session1 (str "p(a).") (str "q(b).")).addedFacts ≠ [] →
      (assert_into_session1 (str "p(a).") (str "q(b).")).knowledgeBase =
        strip (str "p(a)." ++ '\n' ::
          joinNl (assert_into_session1 (str "p(a).") (str "q(b).")).addedFacts)) ∧
    (assert_into_session1
      (assert_into_session1 (str "p(a).") (str "q(b).")).knowledgeBase
      (str "q(b).")).addedFacts = [] ∧
    (assert_into_session1
      (assert_into_session1 (str "p(a).") (str "q(b).")).knowledgeBase
      (str "q(b).")).knowledgeBase =
      (assert_into_session1 (str "p(a).") (str "q(b).")).knowledgeBase) :=
  ⟨by decide, claim_C5_amended (str "p(a).") (str "q(b).") (by decide)⟩

/-- C7, counterexample to the claim as stated: there is no handler around the
backend call in `_run_prompt_chain`, so a failure on the first variant
propagates immediately instead of the executor proceeding to the second,
non-blank variant. -/
theorem claim_C7_counterexample :
    run_prompt_chain [.error (.provider "backend unreachable"), .ok (str "p(a).")] =
      .error (.provider "backend unreachable") ∧
    run_prompt_chain [.error (.provider "backend unreachable"), .ok (str "p(a).")] ≠
      .ok (strip (str "p(a).")) := by
  refine ⟨rfl, ?_⟩
  intro h
  exact Except.noConfusion h

theorem runChainGo_ok_cons (t : List Char) (rest : List (Except MCRErr (List Char))) :
    runChainGo (.ok t :: rest) =
      if t.isEmpty then runChainGo rest
      else if (strip t).isEmpty then runChainGo rest else .ok (strip t) := rfl

theorem runChainGo_append_blank {rs1 : List (Except MCRErr (List Char))}
    (h : ∀ r ∈ rs1, ∃ t, r = .ok t ∧ strip t = [])
    (X : List (Except MCRErr (List Char))) :
    runChainGo (rs1 ++ X) = runChainGo X := by
  induction rs1 with
  | nil => rfl
  | cons r rest ih =>
    obtain ⟨t, rfl, hts⟩ := h r (List.mem_cons_self r rest)
    rw [List.cons_append, runChainGo_ok_cons]
    by_cases hte : t.isEmpty
    · rw [if_pos hte]
      exact ih (fun r hr => h r (List.mem_cons_of_mem _ hr))
    · rw [if_neg hte, if_pos (by rw [hts]; rfl)]
      exact ih (fun r hr => h r (List.mem_cons_of_mem _ hr))

/-- C7 (amended): the chain executor tries the variants strictly in order and
returns the first non-blank response (stripped) immediately; it raises the
exhaustion error only after every variant returned a blank result; but a
backend-call failure on a variant is NOT absorbed - it propagates immediately
and later variants are not tried. -/
theorem claim_C7_amended :
    (∀ rs : List (Except MCRErr (List Char)), rs ≠ [] →
      (∀ r ∈ rs, ∃ t, r = .ok t ∧ strip t = []) →
      run_prompt_chain rs =
        .error (.provider "LLM failed after trying all variants.")) ∧
    (∀ rs1 rs2 : List (Except MCRErr (List Char)), ∀ s : List Char,
      (∀ r ∈ rs1, ∃ t, r = .ok t ∧ strip t = []) → strip s ≠ [] →
      run_prompt_chain (rs1 ++ .ok s :: rs2) = .ok (strip s)) ∧
    (∀ rs1 rs2 : List (Except MCRErr (List Char)), ∀ e : MCRErr,
      (∀ r ∈ rs1, ∃ t, r = .ok t ∧ strip t = []) →
      run_prompt_chain (rs1 ++ .error e :: rs2) = .error e) := by
  refine ⟨?_, ?_, ?_⟩
  · intro rs hne hblank
    unfold run_prompt_chain
    rw [if_neg (by simpa using hne)]
    have := runChainGo_append_blank hblank []
    rw [List.append_nil] at this
    rw [this]
    rfl
  · intro rs1 rs2 s hblank hs
    have hsne : ¬s.isEmpty = true := by
      intro hcon
      rw [List.isEmpty_iff.1 hcon] at hs
      exact hs rfl
    unfold run_prompt_chain
    rw [if_neg (by simp)]
    rw [runChainGo_append_blank hblank, runChainGo_ok_cons]
    rw [if_neg hsne, if_neg (by simpa using hs)]
  · intro rs1 rs2 e hblank
    unfold run_prompt_chain
    rw [if_neg (by simp)]
    rw [runChainGo_append_blank hblank]
    rfl

/-- C7, witness: a blank first variant is skipped, the second non-blank
variant wins, and a first-variant error propagates unchanged. -/
theorem claim_C7_witness :
    run_prompt_chain [.ok (str "  "), .ok (str " q(b). ")] = .ok (strip (str " q(b). ")) ∧
    run_prompt_chain [.ok (str "  "), .error (.provider "rate limit")] =
      .error (.provider "rate limit") :=
  ⟨claim_C7_amended.2.1 [.ok (str "  ")] [] (str " q(b). ")
      (fun r hr => by
        rw [List.mem_singleton] at hr
        exact ⟨str "  ", hr, by decide⟩)
      (by decide),
   claim_C7_amended.2.2 [.ok (str "  ")] [] (.provider "rate limit")
      (fun r hr => by
        rw [List.mem_singleton] at hr
        exact ⟨str "  ", hr, by decide⟩)⟩

/-- C8 (confirmed): `update_kb` validates the proposed text with the engine
parser before committing; on a validation failure it raises
`ValidationError` and the stored KB is unchanged (no save), and a save happens
exactly when validation succeeds. -/
theorem claim_C8 (validate : List Char → Option String) (kb0 newKb : List Char) :
    (∀ err, validate newKb = some err →
      update_kb validate (some kb0) newKb =
        (some kb0, .error (.validation ("KB validation failed: " ++ err)))) ∧
    (validate newKb = none →
      update_kb validate (some kb0) newKb = (some newKb, .ok ())) := by
  constructor
  · intro err h
    unfold update_kb
    rw [h]
  · intro h
    unfold update_kb
    rw [h]

/-- C8, witness: a rejecting validator leaves the stored KB unchanged, an
accepting one commits the new text. -/
theorem claim_C8_witness :
    update_kb (fun _ => some "syntax error") (some (str "p(a).")) (str ":::") =
      (some (str "p(a)."),
        .error (.validation ("KB validation failed: " ++ "syntax error"))) ∧
    update_kb (fun _ => none) (some (str "p(a).")) (str "q(b).") =
      (some (str "q(b)."), .ok ()) :=
  ⟨(claim_C8 (fun _ => some "syntax error") (str "p(a).") (str ":::")).1
      "syntax error" rfl,
   (claim_C8 (fun _ => none) (str "p(a).") (str "q(b).")).2 rfl⟩

/-- C9 (confirmed): the reasoning dispatcher normalizes a `None` engine result
to the empty outcome `[]` (in both mcrws1 and mcrws3), a timeout raises the
timeout `ProviderError` rather than producing any outcome, and no timeout can
ever yield a successful (in particular, empty) result. -/
theorem claim_C9 :
    reason_query1 (.value none) = .ok (.pyList []) ∧
    reason_query3 (.value none) = .ok (.pyList []) ∧
    reason_query1 .timeout = .error (.provider "Reasoning query timed out after 5s.") ∧
    reason_query3 .timeout = .error (.provider "Reasoning query timed out after 10s.") ∧
    (∀ (r : EngineResult) (v : PyVal), reason_query1 r = .ok v → r ≠ .timeout) ∧
    (∀ (r : EngineResult) (v : PyVal), reason_query3 r = .ok v → r ≠ .timeout) := by
  refine ⟨rfl, rfl, rfl, rfl, ?_, ?_⟩
  · intro r v h hr
    subst hr
    exact Except.noConfusion h
  · intro r v h hr
    subst hr
    exact Except.noConfusion h

/-- C9, witness: the no-timeout-as-empty-result property at a concrete
successful evaluation. -/
theorem claim_C9_witness :
    reason_query1 (.value (some (.pyBool true))) = .ok (.pyBool true) ∧
    EngineResult.value (some (PyVal.pyBool true)) ≠ EngineResult.timeout :=
  ⟨rfl, claim_C9.2.2.2.2.1 (.value (some (.pyBool true))) (.pyBool true) rfl⟩

/-- C10 (confirmed): when clauses survive dedup, the resulting KB text is the
previous text, a newline and the surviving clauses joined by newlines, with
leading and trailing whitespace stripped from the whole concatenation;
consequently the result carries no leading or trailing whitespace or blank
lines (dropping leading whitespace and stripping trailing whitespace leave it
unchanged), and the session is saved. -/
theorem claim_C10 (kb resp : List Char)
    (h : (assert_into_session1 kb resp).addedFacts ≠ []) :
    (assert_into_session1 kb resp).knowledgeBase =
      strip (kb ++ '\n' :: joinNl (assert_into_session1 kb resp).addedFacts) ∧
    List.dropWhile isSpace (assert_into_session1 kb resp).knowledgeBase =
      (assert_into_session1 kb resp).knowledgeBase ∧
    rstrip (assert_into_session1 kb resp).knowledgeBase =
      (assert_into_session1 kb resp).knowledgeBase ∧
    (assert_into_session1 kb resp).saved = true := by
  rw [assert1_addedFacts] at h
  have hem : ¬((extract_prolog1 resp).filter
      (fun f => decide (f ∉ pySplitlines kb))).isEmpty = true := by
    intro hcon
    exact h (List.isEmpty_iff.1 hcon)
  have hkb := assert1_kb_of_not_isEmpty hem
  have hsaved : (assert_into_session1 kb resp).saved = true := by
    unfold assert_into_session1
    simp only []
    rw [if_neg hem]
  refine ⟨?_, ?_, ?_, hsaved⟩
  · rw [assert1_addedFacts]
    exact hkb
  · rw [hkb]
    exact dropWhile_strip _
  · rw [hkb]
    exact rstrip_strip _

/-- C10, witness: asserting against a KB text with leading whitespace and a
trailing newline; the appended result is stripped at both ends. -/
theorem claim_C10_witness :
    (assert_into_session1 (str " p(a).\n") (str "q(b).")).addedFacts ≠ [] ∧
    ((assert_into_session1 (str " p(a).\n") (str "q(b).")).knowledgeBase =
      strip (str " p(a).\n" ++ '\n' ::
        joinNl (assert_into_session1 (str " p(a).\n") (str "q(b).")).addedFacts) ∧
    List.dropWhile isSpace
        (assert_into_session1 (str " p(a).\n") (str "q(b).")).knowledgeBase =
      (assert_into_session1 (str " p(a).\n") (str "q(b).")).knowledgeBase ∧
    rstrip (assert_into_session1 (str " p(a).\n") (str "q(b).")).knowledgeBase =
      (assert_into_session1 (str " p(a).\n") (str "q(b).")).knowledgeBase ∧
    (assert_into_session1 (str " p(a).\n") (str "q(b).")).saved = true) :=
  ⟨by decide, claim_C10 (str " p(a).\n") (str "q(b).") (by decide)⟩

theorem char_le_nat {a b : Char} (h : a ≤ b) : a.toNat ≤ b.toNat := by
  rw [Char.le_def, UInt32.le_def, BitVec.le_def] at h
  exact h

theorem lower_not_space {c : Char} (hl : isLowerCh c = true) : isSpace c = false := by
  unfold isLowerCh at hl
  rw [Bool.and_eq_true, decide_eq_true_eq, decide_eq_true_eq] at hl
  have h1 : 97 ≤ c.toNat := char_le_nat hl.1
  have h2 : c.toNat ≤ 122 := char_le_nat hl.2
  cases hx : isSpace c
  · rfl
  · exfalso
    unfold isSpace isBreak at hx
    simp only [Bool.or_eq_true, Bool.and_eq_true, decide_eq_true_eq] at hx
    repeat' rcases hx with hx | hx
    all_goals first
      | (obtain ⟨ha, hb⟩ := hx
         first
           | (have hb2 : c.toNat ≤ 13 := char_le_nat hb
              omega)
           | (have hb2 : c.toNat ≤ 30 := char_le_nat hb
              omega)
           | (have ha2 : 8192 ≤ c.toNat := char_le_nat ha
              omega))
      | exact absurd hl.1 (by decide)
      | exact absurd hl.2 (by decide)

theorem lower_ne_percent {c : Char} (hl : isLowerCh c = true) : c ≠ '%' := by
  intro h
  subst h
  exact absurd hl (by decide)

theorem dropWhile_append_of_all {p : Char → Bool} {xs : List Char}
    (h : ∀ x ∈ xs, p x = true) {y : Char} (hy : p y = false) (ys : List Char) :
    (xs ++ y :: ys).dropWhile p = y :: ys := by
  induction xs with
  | nil => simp [List.dropWhile_cons, hy]
  | cons a t ih =>
    rw [List.cons_append, List.dropWhile_cons, if_pos (h a (List.mem_cons_self a t))]
    exact ih (fun x hx => h x (List.mem_cons_of_mem _ hx))

theorem matchClause_shape {l m rest : List Char} (h : matchClause l = some (m, rest)) :
    ∃ c idt R, m = c :: (idt ++ '(' :: R) ∧ isLowerCh c = true ∧
      ∀ x ∈ idt, isIdentChar x = true := by
  cases l with
  | nil => exact absurd h (by simp [matchClause])
  | cons c cs =>
    by_cases hc : isLowerCh c
    · rw [matchClause, if_pos hc] at h
      simp only [] at h
      split at h
      · split at h
        · simp only [Option.some.injEq, Prod.mk.injEq] at h
          exact ⟨c, cs.takeWhile isIdentChar, _, h.1.symm, hc,
            fun x hx => List.mem_takeWhile_imp hx⟩
        · exact absurd h (by simp)
      · exact absurd h (by simp)
    · rw [matchClause, if_neg hc] at h
      exact absurd h (by simp)

theorem mem_findClausesGo_shape : ∀ (fuel : Nat) (cs : List Char) (b : Bool)
    (f : List Char), f ∈ findClausesGo fuel cs b →
    ∃ c idt R, f = c :: (idt ++ '(' :: R) ∧ isLowerCh c = true ∧
      ∀ x ∈ idt, isIdentChar x = true := by
  intro fuel
  induction fuel with
  | zero =>
    intro cs b f h
    exact absurd h (by simp [findClausesGo])
  | succ n ih =>
    intro cs b f h
    cases cs with
    | nil => exact absurd h (by simp [findClausesGo])
    | cons c cs2 =>
      unfold findClausesGo at h
      by_cases hb : b
      · rw [if_pos hb] at h
        split at h
        · rename_i m rest hm
          rcases List.mem_cons.1 h with rfl | h2
          · exact matchClause_shape hm
          · exact ih rest _ f h2
        · exact ih cs2 _ f h
      · rw [if_neg hb] at h
        exact ih cs2 _ f h

theorem rstrip_ne_nil_of_nonspace {s : List Char} {x : Char} (hx : x ∈ s)
    (hxs : isSpace x = false) : rstrip s ≠ [] := by
  intro hcon
  rw [rstrip_eq_nil_iff] at hcon
  rw [hcon x hx] at hxs
  exact Bool.noConfusion hxs

theorem strip_clause_shape {c : Char} {idt R : List Char} (hc : isLowerCh c = true) :
    ∃ R2, strip (c :: (idt ++ '(' :: R)) = c :: (idt ++ '(' :: R2) := by
  have hcs : isSpace c = false := lower_not_space hc
  have hdw : (c :: (idt ++ '(' :: R)).dropWhile isSpace = c :: (idt ++ '(' :: R) := by
    rw [List.dropWhile_cons, if_neg (by rw [hcs]; exact Bool.noConfusion)]
  unfold strip
  rw [hdw]
  have hsplit : c :: (idt ++ '(' :: R) = ((c :: idt) ++ ['(']) ++ R := by
    simp [List.append_assoc]
  rw [hsplit, rstrip_append]
  by_cases hR : rstrip R = []
  · have hpar : rstrip ['('] ≠ [] :=
      rstrip_ne_nil_of_nonspace (List.mem_singleton.2 rfl) (by decide)
    rw [if_pos hR, rstrip_append, if_neg hpar]
    refine ⟨[], ?_⟩
    have h2 : rstrip ['('] = ['('] := by decide
    rw [h2]
    simp
  · rw [if_neg hR]
    exact ⟨rstrip R, by simp⟩

theorem mem_extract_prolog3_shape {text f : List Char} (h : f ∈ extract_prolog3 text) :
    (∃ c idt R, f = c :: (idt ++ '(' :: R) ∧ isLowerCh c = true ∧
      ∀ x ∈ idt, isIdentChar x = true) ∧ f.getLast? = some '.' := by
  unfold extract_prolog3 at h
  obtain ⟨m, hm, rfl⟩ := List.mem_map.1 h
  obtain ⟨c, idt, R, rfl, hc, hidt⟩ := mem_findClausesGo_shape _ _ _ m hm
  obtain ⟨R2, hstrip⟩ := @strip_clause_shape c idt R hc
  by_cases hdot : (strip (c :: (idt ++ '(' :: R))).getLast? = some '.'
  · rw [if_pos hdot, hstrip]
    refine ⟨⟨c, idt, R2, rfl, hc, hidt⟩, ?_⟩
    rw [← hstrip]
    exact hdot
  · rw [if_neg hdot, hstrip]
    refine ⟨⟨c, idt, R2 ++ ['.'], by simp, hc, hidt⟩, ?_⟩
    exact List.getLast?_concat _

theorem mem_extract_lines {text l : List Char}
    (h : l ∈ ((splitOnChar '\n' text).map strip).filter
      (fun l => !l.isEmpty && !(decide (l.head? = some '%')))) :
    l ≠ [] ∧ l.head? ≠ some '%' := by
  have hcond := (List.mem_filter.1 h).2
  simp only [Bool.and_eq_true, Bool.not_eq_true', List.isEmpty_eq_false,
    decide_eq_false_iff_not] at hcond
  exact hcond

/-! C2: emitted clause strings. -/

/-- C2, counterexample to the claim as stated: in mcrws2 the terminator test is
the regex `[:.]$`, so a line already ending in `':'` is emitted without the
clause terminator `'.'`. -/
theorem claim_C2_counterexample :
    extract_prolog2 (str "p(a):") = [str "p(a):"] ∧
    (str "p(a):").getLast? ≠ some '.' := by decide

/-- C2 (amended): every string the clause normalizer emits is nonblank and is
not a comment line, and it ends with the terminator `'.'` in mcrws1 and
mcrws3; in mcrws2 it ends with `'.'` or with `':'` (a line already ending in
`':'` is passed through unterminated). -/
theorem claim_C2_amended :
    (∀ text f : List Char, f ∈ extract_prolog1 text →
      f.getLast? = some '.' ∧ f ≠ [] ∧ f.head? ≠ some '%') ∧
    (∀ text f : List Char, f ∈ extract_prolog2 text →
      (f.getLast? = some '.' ∨ f.getLast? = some ':') ∧ f ≠ [] ∧ f.head? ≠ some '%') ∧
    (∀ text f : List Char, f ∈ extract_prolog3 text →
      f.getLast? = some '.' ∧ f ≠ [] ∧ f.head? ≠ some '%') := by
  refine ⟨?_, ?_, ?_⟩
  · intro text f hf
    unfold extract_prolog1 at hf
    simp only [] at hf
    obtain ⟨l, hl, rfl⟩ := List.mem_map.1 hf
    obtain ⟨hne, hpc⟩ := mem_extract_lines hl
    by_cases hdot : l.getLast? = some '.'
    · rw [if_pos hdot]
      exact ⟨hdot, hne, hpc⟩
    · rw [if_neg hdot]
      refine ⟨List.getLast?_concat _, by simp, ?_⟩
      rw [head?_append_left hne]
      exact hpc
  · intro text f hf
    unfold extract_prolog2 at hf
    simp only [] at hf
    obtain ⟨l, hl, rfl⟩ := List.mem_map.1 hf
    obtain ⟨hne, hpc⟩ := mem_extract_lines hl
    by_cases hdot : l.getLast? = some '.' ∨ l.getLast? = some ':'
    · rw [if_pos hdot]
      exact ⟨hdot, hne, hpc⟩
    · rw [if_neg hdot]
      refine ⟨Or.inl (List.getLast?_concat _), by simp, ?_⟩
      rw [head?_append_left hne]
      exact hpc
  · intro text f hf
    obtain ⟨⟨c, idt, R, rfl, hc, _⟩, hdot⟩ := mem_extract_prolog3_shape hf
    refine ⟨hdot, by simp, ?_⟩
    intro hcon
    rw [List.head?_cons] at hcon
    exact lower_ne_percent hc (Option.some.inj hcon)

/-- C2, witness: the amended emission shape at a concrete extracted clause. -/
theorem claim_C2_witness :
    (str "ok.").getLast? = some '.' ∧ str "ok." ≠ [] ∧ (str "ok.").head? ≠ some '%' :=
  claim_C2_amended.1 (str "ok") (str "ok.") (by decide)

/-! C3: the candidate-clause shape check. -/

/-- C3, counterexample to the claim as stated: mcrws1's normalizer performs no
shape check at all - it accepts the prose line `"Hello world"`, emitting
`"Hello world."`, which does not begin with a lowercase identifier followed
by `'('`. -/
theorem claim_C3_counterexample :
    extract_prolog1 (str "Hello world") = [str "Hello world."] ∧
    startsWithIdentParen (str "Hello world.") = false := by decide

/-- C3 (amended): only mcrws3's normalizer enforces the shape check: every
string it emits begins with a lowercase identifier immediately followed by
`'('` (prose, headers and markdown fencing never reach its output); mcrws1
(and mcrws2, which uses the same line filter) accept any nonblank
non-comment line. -/
theorem claim_C3_amended (text f : List Char) (h : f ∈ extract_prolog3 text) :
    startsWithIdentParen f = true := by
  obtain ⟨⟨c, idt, R, rfl, hc, hidt⟩, _⟩ := mem_extract_prolog3_shape h
  show (isLowerCh c &&
    decide (((idt ++ '(' :: R).dropWhile isIdentChar).head? = some '(')) = true
  rw [dropWhile_append_of_all hidt (by decide) R]
  simp [hc]

/-- C3, witness: a concrete mcrws3 extraction whose output passes the shape
check. -/
theorem claim_C3_witness :
    str "p(a)." ∈ extract_prolog3 (str "p(a)") ∧
    startsWithIdentParen (str "p(a).") = true :=
  ⟨by decide, claim_C3_amended (str "p(a)") (str "p(a).") (by decide)⟩

/-! C6: schema arity. -/

theorem mem_sortedSet {x : List Char} {items : List (List Char)} :
    x ∈ sortedSet items ↔ x ∈ items := by
  unfold sortedSet
  rw [List.mem_dedup]
  exact (List.perm_insertionSort _ items).mem_iff

theorem matchPredName_of_matchIdentParen {l name : List Char}
    (h : matchIdentParen l = some name) : matchPredName l = some name := by
  cases l with
  | nil => exact absurd h (by simp [matchIdentParen])
  | cons c cs =>
    by_cases hc : isLowerCh c
    · rw [matchIdentParen, if_pos hc] at h
      split at h
      · rename_i r2 hdrop
        rw [matchPredName, if_pos hc]
        simp only []
        rw [if_pos ?_]
        · exact h
        · rw [hdrop]
          simp [List.any_cons]
      · exact absurd h (by simp)
    · rw [matchIdentParen, if_neg hc] at h
      exact absurd h (by simp)

theorem matchIdentParen_ne_nil {l name : List Char}
    (h : matchIdentParen l = some name) : ∃ c cs, l = c :: cs ∧ isLowerCh c = true := by
  cases l with
  | nil => exact absurd h (by simp [matchIdentParen])
  | cons c cs =>
    refine ⟨c, cs, rfl, ?_⟩
    by_cases hc : isLowerCh c
    · exact hc
    · rw [matchIdentParen, if_neg hc] at h
      exact absurd h (by simp)

/-- C6, counterexample to the claim as stated: mcrws2 records `p/1` - not
`p/0` - for the empty-argument fact `"p()."` (its arity formula adds one
whenever parentheses are present), and mcrws3 records `a/2` - not `a/1` - for
the line `"a(b),c(d)."` (it counts every comma of the text before `':-'`, not
only those inside the outermost parenthesis group of the head). -/
theorem claim_C6_counterexample :
    kb_schema2 (str "p().") = [str "p/1"] ∧
    str "p/0" ∉ kb_schema2 (str "p().") ∧
    str "a/2" ∈ kb_schema3 (str "a(b),c(d).") ∧
    str "a/1" ∉ kb_schema3 (str "a(b),c(d).") := by decide

/-- C6 (amended): for every KB line whose stripped text begins with a lowercase
identifier immediately followed by `'('`, the schema extractor records the
signature `name/arity`, where the arity is: in mcrws2, the line's full comma
count plus one when parentheses are present, minus the commas of the first
rule-body segment (`arityWS2`); in mcrws3, zero when the text before `':-'`
contains `"()"`, and otherwise that text's comma count plus one (`arityWS3`). -/
theorem claim_C6_amended (kb line name : List Char)
    (hmem : line ∈ pySplitlines kb)
    (hmatch : matchIdentParen (strip line) = some name) :
    name ++ '/' :: intStr (arityWS2 (strip line)) ∈ kb_schema2 kb ∧
    name ++ '/' :: intStr (arityWS3 (strip line)) ∈ kb_schema3 kb := by
  obtain ⟨c, cs, hl, hc⟩ := matchIdentParen_ne_nil hmatch
  have hguard : ((strip line).isEmpty || decide ((strip line).head? = some '%')) = false := by
    rw [hl]
    simp only [List.isEmpty_cons, List.head?_cons, Bool.false_or,
      decide_eq_false_iff_not]
    intro hcon
    exact lower_ne_percent hc (Option.some.inj hcon)
  constructor
  · rw [kb_schema2, mem_sortedSet, List.mem_flatMap]
    refine ⟨line, hmem, ?_⟩
    unfold lineItems2
    simp only []
    rw [if_neg (by rw [hguard]; exact Bool.noConfusion), hmatch]
    exact List.mem_singleton.2 rfl
  · rw [kb_schema3, mem_sortedSet, List.mem_flatMap]
    refine ⟨line, hmem, ?_⟩
    unfold lineItems3
    simp only []
    rw [if_neg (by rw [hguard]; exact Bool.noConfusion),
      matchPredName_of_matchIdentParen hmatch]
    exact List.mem_append_left _ (List.mem_singleton.2 rfl)

/-- C6, witness: the recorded signature for a concrete two-argument fact, in
both schema extractors. -/
theorem claim_C6_witness :
    (str "parent" ++ '/' :: intStr (arityWS2 (strip (str "parent(a, b).")))) ∈
      kb_schema2 (str "parent(a, b).") ∧
    (str "parent" ++ '/' :: intStr (arityWS3 (strip (str "parent(a, b).")))) ∈
      kb_schema3 (str "parent(a, b).") :=
  claim_C6_amended (str "parent(a, b).") (str "parent(a, b).") (str "parent")
    (by decide) (by decide)

end MCR
